import Mathlib

/-!
Verification of `five_step_cycle.py` (repository `complexity-vector-1`).

This file is a shallow embedding of the state-transformation and
complexity-measurement engine of `src/code/five_step_cycle.py`:

* classical bit primitives (`prg_expand`, `parity`, syndrome encoding,
  `arnold_cat_map_bits`, the unmixing step of `f_dyn_inv`) are translated
  as computable functions on `List ℤ` (Python's `%` on integers agrees
  with `Int`'s `%` (`Int.emod`), and `x ^ y` on bits agrees with
  `(x + y) % 2`);
* the quantum layer (8×8 complex density matrices, gates, projective
  measurement, Floquet evolution by matrix exponentials) is translated
  over `Matrix (Fin 8) (Fin 8) ℂ`;
* the two calls to `np.linalg.eigh` made by the inverse morphisms
  (extraction of a normalized dominant eigenvector) and the output of
  `np.linalg.eigvalsh` used by the pillar functions are modelled as
  explicit parameters constrained by predicates (`IsMaxEigenvector`,
  `IsSpectrum`) stating exactly what the library call returns;
* the point clouds drawn by `numpy`'s seeded generator in
  `bits_to_points` are modelled as explicit list parameters.

The claims of the specification are then settled as theorems about these
definitions.
-/

namespace FiveStep

open scoped Matrix ComplexOrder

/- ============================================================
   Classical bit primitives (computable)
   ============================================================ -/

/-- One output step of `prg_expand`'s LFSR loop: emit `state[0]`; the new
last element is `state[3] ^ state[2]` (on bits, xor is addition mod 2);
`np.roll(state, -1)` followed by overwriting the last entry is
`state.drop 1 ++ [new_bit]`. -/
def prg_expand (seed : List ℤ) : ℕ → List ℤ
  | 0 => []
  | n + 1 =>
    seed.getD 0 0 :: prg_expand (seed.drop 1 ++ [(seed.getD 3 0 + seed.getD 2 0) % 2]) n

/-- `PRG_SEED = np.array([0, 1, 1, 0])`. -/
def PRG_SEED : List ℤ := [0, 1, 1, 0]

/-- `parity`: XOR of all bits of a block, i.e. the sum mod 2. -/
def parity (bits : List ℤ) : ℤ := bits.sum % 2

/-- The four block syndromes of `morphism_2_syndrome_encoding`:
`parity(C[2i : 2i+2])` for `i = 0, 1, 2, 3` (`N_BITS = 8`). -/
def syndrome_blocks (C : List ℤ) : List ℤ :=
  (List.range 4).map (fun i => parity ((C.drop (2 * i)).take 2))

/-- Classical half of `morphism_2_syndrome_encoding`:
`C_2[2i] = (C_2[2i] + syn_i) % 2`, syndromes precomputed from the input. -/
def syndrome_encode (C : List ℤ) : List ℤ :=
  (List.range 4).foldl
    (fun acc i => acc.set (2 * i) ((acc.getD (2 * i) 0 + (syndrome_blocks C).getD i 0) % 2)) C

/-- Classical half of `f_info_inv`: recompute the syndromes from the current
bits, subtract them back at the even positions, then reset bit 0 to `0`. -/
def syndrome_decode (C : List ℤ) : List ℤ :=
  (((List.range 4).foldl
    (fun acc i => acc.set (2 * i) ((acc.getD (2 * i) 0 - (syndrome_blocks C).getD i 0) % 2)) C)).set 0 0

/-- `bit_int |= int(b) << i` over the enumerated bits (LSB-first packing). -/
def bits_to_int (bits : List ℤ) : ℕ :=
  (List.range bits.length).foldl (fun acc i => acc ||| ((bits.getD i 0).toNat <<< i)) 0

/-- One round of `arnold_cat_map_bits`: multiply by 137 mod 256, XOR with the
4-bit-rotated copy, XOR with `(original >> round) & 0xFF`. -/
def arnold_round (orig y r : ℕ) : ℕ :=
  let y1 := (y * 137) &&& 0xFF
  let y2 := y1 ^^^ (((y1 <<< 4) ||| (y1 >>> 4)) &&& 0xFF)
  y2 ^^^ ((orig >>> r) &&& 0xFF)

/-- `arnold_cat_map_bits` (default arguments: 3 rounds, final XOR with
`0b10101010`); bits are packed LSB-first and unpacked the same way
(`result[i] = (bit_int >> i) & 1`). -/
def arnold_cat_map_bits (bits : List ℤ) : List ℤ :=
  let n := bits.length
  let orig := bits_to_int bits
  let y := ((List.range 3).foldl (fun y r => arnold_round orig y r) orig) ^^^ 0b10101010
  (List.range n).map (fun i => (((y >>> i) &&& 1 : ℕ) : ℤ))

/-- Classical half of `f_dyn_inv`: `unmixed[i] = (C[i] + C[(i+1)%n] + C[(i-1)%n]) % 2`
(for `0 ≤ i < n`, Python's `(i-1) % n` is `(i + n - 1) % n`), then scatter
`C_inv[(2i + i//2) % n] = unmixed[i]` into a zero-initialised array, later
writes overwriting earlier ones. -/
def unmix_bits (C : List ℤ) : List ℤ :=
  let n := C.length
  let unmixed := (List.range n).map
    (fun i => (C.getD i 0 + C.getD ((i + 1) % n) 0 + C.getD ((i + n - 1) % n) 0) % 2)
  (List.range n).foldl (fun acc i => acc.set ((2 * i + i / 2) % n) (unmixed.getD i 0))
    (List.replicate n 0)

/- ============================================================
   Quantum layer: 8×8 complex matrices
   ============================================================ -/

/-- The 3-qubit density matrices of `five_step_cycle.py` (`DIM_HILBERT = 8`). -/
abbrev Mat8 := Matrix (Fin 8) (Fin 8) ℂ

/-- `SystemState`: classical bits, density matrix, the provenance set
`morphisms_applied`, and the optional point cloud `_points`. -/
structure SystemState where
  C : List ℤ
  Q : Mat8
  morphisms_applied : Finset String
  points : Option (List (ℝ × ℝ))

/-- `np.kron` of a 2×2 and a 4×4 factor: `K[i,j] = A[i//4, j//4] * B[i%4, j%4]`. -/
def kron24 (A : Matrix (Fin 2) (Fin 2) ℂ) (B : Matrix (Fin 4) (Fin 4) ℂ) : Mat8 :=
  Matrix.of fun i j =>
    A ⟨i.val / 4, by have := i.isLt; omega⟩ ⟨j.val / 4, by have := j.isLt; omega⟩ *
    B ⟨i.val % 4, by have := i.isLt; omega⟩ ⟨j.val % 4, by have := j.isLt; omega⟩

/-- `np.kron` of two 2×2 factors: `K[i,j] = A[i//2, j//2] * B[i%2, j%2]`.
`np.kron` is associative on index formulas, so the iterated products built by
`ising_hamiltonian`/`kick_hamiltonian` are `kron24 M0 (kron22 M1 M2)`. -/
def kron22 (A B : Matrix (Fin 2) (Fin 2) ℂ) : Matrix (Fin 4) (Fin 4) ℂ :=
  Matrix.of fun i j =>
    A ⟨i.val / 2, by have := i.isLt; omega⟩ ⟨j.val / 2, by have := j.isLt; omega⟩ *
    B ⟨i.val % 2, by have := i.isLt; omega⟩ ⟨j.val % 2, by have := j.isLt; omega⟩

/-- The Hadamard gate `np.array([[1, 1], [1, -1]]) / np.sqrt(2)`. -/
noncomputable def Hmat : Matrix (Fin 2) (Fin 2) ℂ :=
  (((Real.sqrt 2)⁻¹ : ℝ) : ℂ) • !![1, 1; 1, -1]

/-- Pauli `Z`. -/
def Z2 : Matrix (Fin 2) (Fin 2) ℂ := !![1, 0; 0, -1]

/-- Pauli `X`. -/
def X2 : Matrix (Fin 2) (Fin 2) ℂ := !![0, 1; 1, 0]

/-- `cnot_gate` at `n_qubits = 3`: built from the identity by swapping each
row `i` whose control bit is set with the row whose target bit is flipped
(`bits[k] = (i >> k) & 1`, least-significant-bit-first). The resulting matrix
has row `i` equal to `e_{i XOR 2^t}` when bit `c` of `i` is set, `e_i`
otherwise. -/
def cnot_gate (c t : Fin 3) : Mat8 :=
  Matrix.of fun i j =>
    if (i.val.testBit c.val ∧ j.val = i.val ^^^ (1 <<< t.val)) ∨
       (¬ i.val.testBit c.val ∧ j = i) then 1 else 0

/-- `projector_single_qubit`: diagonal projector with `P[i,i] = 1` exactly
when bit `q` of `i` equals the outcome. -/
def projector_single_qubit (q : Fin 3) (o : Fin 2) : Mat8 :=
  Matrix.diagonal fun i =>
    if (if i.val.testBit q.val then (1 : Fin 2) else 0) = o then 1 else 0

/-- `|000⟩`, the start vector of `prepare_ghz_state`. -/
def psi000 : Fin 8 → ℂ := fun i => if i = 0 then 1 else 0

/-- `H_full = np.kron(H, np.eye(4))` — Hadamard tensor-embedded at the
`np.kron`-leading (most significant index) position. -/
noncomputable def H_full : Mat8 := kron24 Hmat 1

/-- The state vector built by `prepare_ghz_state(3)`: `H_full` then
`cnot_gate(control=0, target=1)` then `cnot_gate(control=0, target=2)`
applied to `|000⟩`. -/
noncomputable def ghz_psi : Fin 8 → ℂ :=
  (cnot_gate 0 2).mulVec ((cnot_gate 0 1).mulVec (H_full.mulVec psi000))

/-- `prepare_ghz_state(3)`: the density matrix `np.outer(psi, psi.conj())`,
i.e. `ρ[i,j] = ψ[i] * conj(ψ[j])`. -/
noncomputable def prepare_ghz_state : Mat8 := Matrix.vecMulVec ghz_psi (star ghz_psi)

/-- `J_ISING = np.pi / 4`. -/
noncomputable def J_ISING : ℝ := Real.pi / 4

/-- `H_KICK = np.pi / 8`. -/
noncomputable def H_KICK : ℝ := Real.pi / 8

/-- `TAU = 0.5`. -/
noncomputable def TAU : ℝ := 0.5

/-- `A_PARAM = 0.68`. -/
noncomputable def A_PARAM : ℝ := 0.68

/-- `depol_strength = 0.1` inside `measure_qubit`. -/
noncomputable def depol_strength : ℝ := 0.1

/-- `ising_hamiltonian(3, J) = J·(Z⊗Z⊗I) + J·(I⊗Z⊗Z)` (nearest-neighbour
pairs `(0,1)` and `(1,2)` of the `np.kron` ordering). -/
noncomputable def ising_hamiltonian : Mat8 :=
  (J_ISING : ℂ) • kron24 Z2 (kron22 Z2 1) + (J_ISING : ℂ) • kron24 1 (kron22 Z2 Z2)

/-- `kick_hamiltonian(3, h) = h·(X⊗I⊗I) + h·(I⊗X⊗I) + h·(I⊗I⊗X)`. -/
noncomputable def kick_hamiltonian : Mat8 :=
  (H_KICK : ℂ) • kron24 X2 (kron22 1 1) + (H_KICK : ℂ) • kron24 1 (kron22 X2 1) +
    (H_KICK : ℂ) • kron24 1 (kron22 1 X2)

/-- `U_floquet = expm(-1j*H_ising*tau) @ expm(-1j*H_kick*tau)`. -/
noncomputable def U_floquet : Mat8 :=
  NormedSpace.exp ℂ ((-Complex.I * (TAU : ℂ)) • ising_hamiltonian) *
    NormedSpace.exp ℂ ((-Complex.I * (TAU : ℂ)) • kick_hamiltonian)

/-- `U_total = np.linalg.matrix_power(U_floquet, N_KICKS)`, `N_KICKS = 5`. -/
noncomputable def U_total : Mat8 := U_floquet ^ 5

/-- `kicked_ising_evolution`: `ρ' = U_total @ ρ @ U_total.conj().T`. -/
noncomputable def kicked_ising_evolution (rho : Mat8) : Mat8 := U_total * rho * U_totalᴴ

/-- `U_floquet_dag = expm(+1j*H_kick*tau) @ expm(+1j*H_ising*tau)`
(from `f_dyn_inv`). -/
noncomputable def U_floquet_dag : Mat8 :=
  NormedSpace.exp ℂ ((Complex.I * (TAU : ℂ)) • kick_hamiltonian) *
    NormedSpace.exp ℂ ((Complex.I * (TAU : ℂ)) • ising_hamiltonian)

/-- `U_total_dag = np.linalg.matrix_power(U_floquet_dag, N_KICKS)`. -/
noncomputable def U_total_dag : Mat8 := U_floquet_dag ^ 5

/-- Post-measurement state of `measure_qubit(ρ, qubit_index=0, n_qubits=3)`:
`(1 - 0.1)·(P₀ρP₀ + P₁ρP₁) + 0.1·(I/8)`. The sampled outcome does not enter
this matrix; it is returned separately and modelled as a `Fin 2` parameter of
`morphism_2_syndrome_encoding`. -/
noncomputable def measure_qubit_post (rho : Mat8) : Mat8 :=
  ((1 - depol_strength : ℝ) : ℂ) •
      (projector_single_qubit 0 0 * rho * projector_single_qubit 0 0 +
        projector_single_qubit 0 1 * rho * projector_single_qubit 0 1) +
    ((depol_strength : ℝ) : ℂ) • ((8 : ℂ)⁻¹ • 1)

/- ============================================================
   Morphisms
   ============================================================ -/

/-- `morphism_1_circuit_compilation` (`f_alg`): PRG-expand the fixed seed,
prepare the fixed state, add the `'f_alg'` tag; fresh states carry no
point cloud. -/
noncomputable def morphism_1_circuit_compilation (s : SystemState) : SystemState :=
  { C := prg_expand PRG_SEED 8
    Q := prepare_ghz_state
    morphisms_applied := insert "f_alg" s.morphisms_applied
    points := none }

/-- `morphism_2_syndrome_encoding` (`f_info`); `outcome` models the one
Born-rule draw `np.random.choice([0, 1], p=[p_0, p_1])`, which is written
into bit 0 after the syndrome XOR. -/
noncomputable def morphism_2_syndrome_encoding (s : SystemState) (outcome : Fin 2) :
    SystemState :=
  { C := (syndrome_encode s.C).set 0 (outcome.val : ℤ)
    Q := measure_qubit_post s.Q
    morphisms_applied := insert "f_info" s.morphisms_applied
    points := none }

/-- `morphism_3_arnold_cat` (`f_dyn`). -/
noncomputable def morphism_3_arnold_cat (s : SystemState) : SystemState :=
  { C := arnold_cat_map_bits s.C
    Q := kicked_ising_evolution s.Q
    morphisms_applied := insert "f_dyn" s.morphisms_applied
    points := none }

/-- `np.clip(x, 0, 1)`. -/
noncomputable def clip01 (x : ℝ) : ℝ := min 1 (max 0 x)

/-- `T_a`: polar decomposition (`np.arctan2(y, x)` is `Complex.arg (x + iy)`),
radial update `r' = √(a² + (1-a²)·r²)`, back to Cartesian. -/
noncomputable def T_a (points : List (ℝ × ℝ)) (a : ℝ) : List (ℝ × ℝ) :=
  points.map fun p =>
    let r := Real.sqrt (p.1 ^ 2 + p.2 ^ 2)
    let θ := Complex.arg ⟨p.1, p.2⟩
    let rp := Real.sqrt (a ^ 2 + (1 - a ^ 2) * r ^ 2)
    (rp * Real.cos θ, rp * Real.sin θ)

/-- `morphism_4_disk_to_annulus` (`f_geom`): classical bits and density matrix
are copied unchanged; `points_disk` models the draw of
`bits_to_points(C_3, n_points)` (a seeded `numpy` generator); the annulus
cloud `T_a(points_disk)` is attached. -/
noncomputable def morphism_4_disk_to_annulus (s : SystemState)
    (points_disk : List (ℝ × ℝ)) : SystemState :=
  { C := s.C
    Q := s.Q
    morphisms_applied := insert "f_geom" s.morphisms_applied
    points := some (T_a points_disk A_PARAM) }

/-- `f_geom_inv`: linear radial rescale `r_disk = clip((r - a)/(1 - a), 0, 1)`
of the attached cloud (if any); classical and quantum parts are copied;
the `'f_geom'` tag is removed. -/
noncomputable def f_geom_inv (s : SystemState) : SystemState :=
  { C := s.C
    Q := s.Q
    morphisms_applied := s.morphisms_applied.erase "f_geom"
    points := s.points.map fun pts => pts.map fun p =>
      let r := Real.sqrt (p.1 ^ 2 + p.2 ^ 2)
      let θ := Complex.arg ⟨p.1, p.2⟩
      let rd := clip01 ((r - A_PARAM) / (1 - A_PARAM))
      (rd * Real.cos θ, rd * Real.sin θ) }

/-- `f_dyn_inv`: classical unmixing, quantum conjugation by `U_total_dag`;
the freshly constructed `SystemState` carries no point cloud. -/
noncomputable def f_dyn_inv (s : SystemState) : SystemState :=
  { C := unmix_bits s.C
    Q := U_total_dag * s.Q * U_total_dagᴴ
    morphisms_applied := s.morphisms_applied.erase "f_dyn"
    points := none }

/-- `f_info_inv`: syndrome decode; the quantum part is the rank-one projector
`np.outer(v, v.conj())` onto the dominant eigenvector `v` of `s.Q` — the
`np.linalg.eigh` output is modelled as the parameter `v`. -/

noncomputable def f_info_inv (s : SystemState) (v : Fin 8 → ℂ) : SystemState :=
  { C := syndrome_decode s.C
    Q := Matrix.vecMulVec v (star v)
    morphisms_applied := s.morphisms_applied.erase "f_info"
    points := none }

/-- `f_alg_inv`: classical reset to all-zero; on the quantum side the source
loop over `target in (2, 1)` re-extracts the dominant eigenvector `w` of the
(unchanged) input `Q` at each iteration, so only the last iteration's gate
survives: `psi = cnot_gate(0, 1) @ w`, then `psi = H_full @ psi`, and the
output is `np.outer(psi, psi.conj())` with an empty provenance set. -/
noncomputable def f_alg_inv (s : SystemState) (w : Fin 8 → ℂ) : SystemState :=
  { C := List.replicate 8 0
    Q := Matrix.vecMulVec (H_full.mulVec ((cnot_gate 0 1).mulVec w))
          (star (H_full.mulVec ((cnot_gate 0 1).mulVec w)))
    morphisms_applied := ∅
    points := none }

/-- `phi_closing_isomorphism`: `f_alg_inv ∘ f_info_inv ∘ f_dyn_inv ∘ f_geom_inv`;
`v` and `w` are the two dominant-eigenvector extractions inside
`f_info_inv` and `f_alg_inv`. -/
noncomputable def phi_closing_isomorphism (s : SystemState) (v w : Fin 8 → ℂ) :
    SystemState :=
  f_alg_inv (f_info_inv (f_dyn_inv (f_geom_inv s)) v) w

/-- `Q_0`: zeros with `Q_0[0,0] = 1`, i.e. `|000⟩⟨000|`. -/
def Q_0 : Mat8 := Matrix.of fun i j => if i = 0 ∧ j = 0 then 1 else 0

/-- `initial_state()`: all-zero bits, `Q_0`, empty provenance, no points. -/
def initial_state : SystemState :=
  { C := List.replicate 8 0
    Q := Q_0
    morphisms_applied := ∅
    points := none }

/- ============================================================
   Predicates modelling the numpy eigendecomposition calls
   ============================================================ -/

/-- `np.linalg.eigh` returns unit-norm eigenvectors: `Σ |v i|² = 1`. -/
def UnitVec (v : Fin 8 → ℂ) : Prop := (∑ i, Complex.normSq (v i)) = 1

/-- `v` is a normalized eigenvector of `M` for a largest eigenvalue — what
`eigenvecs[:, np.argmax(eigenvals)]` returns for a Hermitian matrix. -/
def IsMaxEigenvector (M : Mat8) (v : Fin 8 → ℂ) : Prop :=
  UnitVec v ∧ ∃ μ : ℝ, M.mulVec v = (μ : ℂ) • v ∧
    ∀ μ2 : ℝ, (∃ u, u ≠ 0 ∧ M.mulVec u = (μ2 : ℂ) • u) → μ2 ≤ μ

/-- `eigs` is the (unordered) real spectrum of `M`, with multiplicity, as
computed by `np.linalg.eigvalsh`: a unitary diagonalisation exhibits it.
Every quantity the pillar functions derive from the eigenvalue array is
permutation-invariant, so the ascending order is not imposed. -/
def IsSpectrum (M : Mat8) (eigs : Fin 8 → ℝ) : Prop :=
  ∃ U : Mat8, Uᴴ * U = 1 ∧ U * Uᴴ = 1 ∧
    M = U * Matrix.diagonal (fun i => (eigs i : ℂ)) * Uᴴ

/-- A valid density matrix: positive semidefinite (hence Hermitian) with
trace exactly 1. -/
def IsValidDM (M : Mat8) : Prop := M.PosSemidef ∧ M.trace = 1

/- ============================================================
   Complexity pillars.  Real comparisons (numpy boolean masks) are
   modelled with classical decidability; the eigenvalue array returned
   by `np.linalg.eigvalsh` is the explicit parameter `eigs`.
   ============================================================ -/

open scoped Classical

/-- `np.mean` of an integer array, as a real number. -/
noncomputable def meanZ (l : List ℤ) : ℝ := (l.sum : ℝ) / l.length

/-- `np.sum(np.abs(np.diff(bits)))`. -/
def diff_abs_sum (C : List ℤ) : ℤ := (C.zipWith (fun a b => |b - a|) C.tail).sum

/-- `circuit_depth_proxy(rho, 3)`: purity `Tr(ρ²)`, entropy
`-Σ λ·log2(λ + 1e-12)` over the eigenvalues `λ > 1e-12`, normalized by
`n_qubits = 3`, combined `0.5·(1-purity) + 0.5·entropy/3`. -/
noncomputable def circuit_depth_proxy (Q : Mat8) (eigs : Fin 8 → ℝ) : ℝ :=
  let purity := ((Q * Q).trace).re
  let entropy := -(∑ i ∈ Finset.univ.filter (fun i => (1e-12 : ℝ) < eigs i),
    eigs i * Real.logb 2 (eigs i + 1e-12))
  0.5 * (1 - purity) + 0.5 * (entropy / 3)

/-- `compute_C_alg`: `0.3·(0.5·hamming + 0.5·pattern) + 0.7·circuit_depth_proxy`. -/
noncomputable def compute_C_alg (s : SystemState) (eigs : Fin 8 → ℝ) : ℝ :=
  let hamming := (s.C.sum : ℝ) / s.C.length
  let pattern := if 1 < s.C.length then (diff_abs_sum s.C : ℝ) / ((s.C.length : ℝ) - 1) else 0
  0.3 * (0.5 * hamming + 0.5 * pattern) + 0.7 * circuit_depth_proxy s.Q eigs

/-- `compute_C_info`: syndrome balance of the 2-bit blocks, quantum
mixedness `1 - Tr(ρ²)`, and normalized rank `(#{λ > 1e-10} - 1)/(8 - 1)`. -/
noncomputable def compute_C_info (s : SystemState) (eigs : Fin 8 → ℝ) : ℝ :=
  let n_blocks := s.C.length / 2
  let syndrome_complexity : ℝ :=
    if 0 < n_blocks then
      let parities := (List.range n_blocks).map (fun i => parity ((s.C.drop (2 * i)).take 2))
      1 - 2 * |meanZ parities - 0.5|
    else 0
  let mixedness := 1 - ((s.Q * s.Q).trace).re
  let rank := (Finset.univ.filter fun i => (1e-10 : ℝ) < eigs i).card
  let rank_normalized := ((rank : ℝ) - 1) / ((8 : ℝ) - 1)
  0.3 * syndrome_complexity + 0.5 * mixedness + 0.2 * rank_normalized

/-- `compute_bit_mixing_score`: transition rate, minimal Hamming distance to
the all-zero / all-one / alternating patterns, normalized entropy of the
2-bit blocks `bits[i:i+2]` for `i in range(0, n-1, 2)`, combined and clipped
to `[0,1]`.  (`np.diff` divides by `n - 1` without a guard; for the `n ≥ 2`
states of this development the division is the ordinary one.) -/
noncomputable def compute_bit_mixing_score (C : List ℤ) : ℝ :=
  let n := C.length
  let transitions := (diff_abs_sum C : ℝ) / ((n : ℝ) - 1)
  let dist_0 := ((C.countP (fun b => decide (b ≠ 0)) : ℕ) : ℝ) / n
  let dist_1 := ((C.countP (fun b => decide (b ≠ 1)) : ℕ) : ℝ) / n
  let dist_alt := (((List.range n).countP
    (fun i => decide (C.getD i 0 ≠ ((i % 2 : ℕ) : ℤ))) : ℕ) : ℝ) / n
  let pattern_distance := min dist_0 (min dist_1 dist_alt)
  let blocks := ((List.range (n / 2)).map (fun k => 2 * k)).map fun i => (C.drop i).take 2
  let total := blocks.length
  let block_entropy_norm : ℝ :=
    if 0 < total then
      (-(blocks.dedup.map fun b =>
          ((blocks.count b : ℝ) / total) * Real.logb 2 ((blocks.count b : ℝ) / total + 1e-12)).sum) / 2
    else 0
  clip01 (0.3 * transitions + 0.4 * pattern_distance + 0.3 * block_entropy_norm)

/-- `compute_C_dyn`: `0.7·bit-mixing score + 0.3·clip(cv, 0, 1)` where `cv`
is the coefficient of variation `std/(mean + 1e-12)` of the eigenvalues
above `1e-12` (0 when at most one survives). -/
noncomputable def compute_C_dyn (s : SystemState) (eigs : Fin 8 → ℝ) : ℝ :=
  let mixing := compute_bit_mixing_score s.C
  let F := Finset.univ.filter fun i => (1e-12 : ℝ) < eigs i
  let m := (∑ j ∈ F, eigs j) / F.card
  let spread : ℝ :=
    if 1 < F.card then
      clip01 (Real.sqrt ((∑ i ∈ F, (eigs i - m) ^ 2) / F.card) / (m + 1e-12))
    else 0
  0.7 * mixing + 0.3 * spread

/-- `central_void_score(points, a, alpha)`.  `np.mean` of an empty boolean
mask is NaN; following the source's control flow the undefined value is
modelled as `none`: radii, detection radius `r₀ = α·a`, expected disk
fraction `r₀²`, observed fraction `mean(r ≤ r₀)` (undefined on an empty
cloud), early `0.0` return when the expected fraction is zero, otherwise
the clipped normalized shortfall. -/
noncomputable def central_void_score (points : List (ℝ × ℝ)) (a alpha : ℝ) : Option ℝ :=
  let rs := points.map fun p => Real.sqrt (p.1 ^ 2 + p.2 ^ 2)
  let r_0 := alpha * a
  let expected := r_0 ^ 2
  let observed : Option ℝ :=
    if rs.length = 0 then none
    else some (((rs.countP fun x => decide (x ≤ r_0)) : ℝ) / rs.length)
  if expected = 0 then some 0
  else observed.map fun obs => clip01 ((expected - obs) / expected)

/-- `compute_C_geom(state, a = A_PARAM)`: uses the attached cloud when
present, otherwise the freshly generated `bits_to_points(C, 1000)` draw —
modelled by the parameter `gen_points`; then the inline central-void score
with `alpha = 0.8` (its `expected_frac > 0` guard). -/
noncomputable def compute_C_geom (s : SystemState) (gen_points : List (ℝ × ℝ)) : Option ℝ :=
  let pts := s.points.getD gen_points
  let rs := pts.map fun p => Real.sqrt (p.1 ^ 2 + p.2 ^ 2)
  let r_0 := 0.8 * A_PARAM
  let expected := r_0 ^ 2
  let observed : Option ℝ :=
    if rs.length = 0 then none
    else some (((rs.countP fun x => decide (x ≤ r_0)) : ℝ) / rs.length)
  if 0 < expected then observed.map fun obs => clip01 ((expected - obs) / expected)
  else some 0

/-- The normalized trace overlap computed by `test_phi_roundtrip`:
`|Tr(ρ₀ρ₀')| / (√Tr(ρ₀²)·√Tr(ρ₀'²))`. -/
noncomputable def trace_overlap (A B : Mat8) : ℝ :=
  Complex.abs ((A * B).trace) / (Real.sqrt ((A * A).trace.re) * Real.sqrt ((B * B).trace.re))

/-- The GHZ state `(|000⟩ + |111⟩)/√2` of the spec's glossary, as a vector
(written from the spec, for comparison with `prepare_ghz_state`). -/
noncomputable def ghz_spec_vec : Fin 8 → ℂ :=
  fun i => if i = 0 ∨ i = 7 then (((Real.sqrt 2)⁻¹ : ℝ) : ℂ) else 0

/-- The GHZ density matrix `|GHZ⟩⟨GHZ|` the spec promises. -/
noncomputable def ghz_spec_dm : Mat8 := Matrix.vecMulVec ghz_spec_vec (star ghz_spec_vec)

/- ============================================================
   Shared helper lemmas
   ============================================================ -/

lemma clip01_nonneg (x : ℝ) : 0 ≤ clip01 x :=
  le_min zero_le_one (le_max_left 0 x)

lemma clip01_le_one (x : ℝ) : clip01 x ≤ 1 :=
  min_le_left 1 _

lemma Q0_mul_Q0 : Q_0 * Q_0 = Q_0 := by
  ext i j
  fin_cases i <;> fin_cases j <;>
    simp [Q_0, Matrix.mul_apply, Fin.sum_univ_eight]

lemma Q0_trace : Q_0.trace = 1 := by
  simp [Matrix.trace, Q_0, Fin.sum_univ_eight, Matrix.diag]

/- ============================================================
   Claim C5 — `arnold_cat_map_bits` is claimed to be a bijection on
   8-bit vectors.  It is not: the distinct inputs packing to the bytes
   254 and 255 produce the same output.
   ============================================================ -/

/-- C5: the chaotic bit-mixing transform used by `f_dyn` is **not**
injective on 8-bit vectors: the two distinct inputs
`[0,1,1,1,1,1,1,1]` (byte 254, LSB-first) and `[1,1,1,1,1,1,1,1]`
(byte 255) are mapped to the same bit vector, refuting the claimed
bijectivity at a concrete input pair. -/
theorem C5_arnold_cat_not_injective :
    arnold_cat_map_bits [0, 1, 1, 1, 1, 1, 1, 1] =
      arnold_cat_map_bits [1, 1, 1, 1, 1, 1, 1, 1] ∧
    ([0, 1, 1, 1, 1, 1, 1, 1] : List ℤ) ≠ [1, 1, 1, 1, 1, 1, 1, 1] := by
  constructor
  · decide
  · decide

/- ============================================================
   Claim C10 — `f_alg` ignores its input except for provenance.
   ============================================================ -/

/-- C10: for any two input states, `morphism_1_circuit_compilation`
produces identical classical components (the fixed LFSR expansion
`[0,1,1,0,1,1,0,1]` of the seed `[0,1,1,0]`) and identical quantum
components (the fixed prepared state), so the outputs differ at most in
their provenance sets. -/
theorem C10_f_alg_ignores_input (s t : SystemState) :
    (morphism_1_circuit_compilation s).C = (morphism_1_circuit_compilation t).C ∧
    (morphism_1_circuit_compilation s).Q = (morphism_1_circuit_compilation t).Q ∧
    (morphism_1_circuit_compilation s).points = (morphism_1_circuit_compilation t).points ∧
    (morphism_1_circuit_compilation s).C = [0, 1, 1, 0, 1, 1, 0, 1] ∧
    (morphism_1_circuit_compilation s).Q = prepare_ghz_state := by
  refine ⟨rfl, rfl, rfl, ?_, rfl⟩
  show prg_expand PRG_SEED 8 = [0, 1, 1, 0, 1, 1, 0, 1]
  decide

/- ============================================================
   Claim C6 — `compute_C_dyn` never reads the provenance set.
   ============================================================ -/

/-- C6: `compute_C_dyn` evaluated with an empty provenance set equals its
value with any non-empty provenance set (same classical bits, quantum
component, point cloud and eigenvalue array), within `1e-9`;
the function never reads `morphisms_applied`. -/
theorem C6_C_dyn_tag_independent (C : List ℤ) (Q : Mat8)
    (pts : Option (List (ℝ × ℝ))) (eigs : Fin 8 → ℝ) (tags : Finset String)
    (h : tags.Nonempty) :
    |compute_C_dyn ⟨C, Q, ∅, pts⟩ eigs - compute_C_dyn ⟨C, Q, tags, pts⟩ eigs| ≤ 1e-9 := by
  have hEq : compute_C_dyn ⟨C, Q, ∅, pts⟩ eigs = compute_C_dyn ⟨C, Q, tags, pts⟩ eigs := rfl
  rw [hEq, sub_self, abs_zero]
  norm_num

/-- Witness for C6 at a concrete state and the non-empty tag set `{"f_alg"}`. -/
theorem C6_witness :
    |compute_C_dyn ⟨List.replicate 8 0, Q_0, ∅, none⟩ (fun _ => 0) -
      compute_C_dyn ⟨List.replicate 8 0, Q_0, {"f_alg"}, none⟩ (fun _ => 0)| ≤ 1e-9 :=
  C6_C_dyn_tag_independent (List.replicate 8 0) Q_0 none (fun _ => 0) {"f_alg"}
    (Finset.singleton_nonempty _)

/- ============================================================
   Claim C9 — `central_void_score` on degenerate clouds.
   ============================================================ -/

/-- C9 counterexample: on the **empty** cloud (with `a = 0.68`,
`alpha = 0.8`) the observed fraction is the mean of an empty array — NaN —
and `central_void_score` returns the undefined value (`none`), not a
defined score in `[0,1]`. -/
theorem C9_empty_cloud_undefined : central_void_score [] 0.68 0.8 = none := by
  unfold central_void_score
  rw [if_neg (by norm_num)]
  rfl

/-- C9 amended: on every **non-empty** cloud (in particular a cloud of
all-identical points) and any parameters, `central_void_score` divides by
nothing undefined and returns a defined score in `[0,1]`. -/
theorem C9_nonempty_cloud_defined (points : List (ℝ × ℝ)) (a alpha : ℝ)
    (h : points ≠ []) :
    ∃ v, central_void_score points a alpha = some v ∧ 0 ≤ v ∧ v ≤ 1 := by
  unfold central_void_score
  by_cases hz : (alpha * a) ^ 2 = 0
  · exact ⟨0, by rw [if_pos hz], le_refl 0, zero_le_one⟩
  · have hlen : ¬ (points.map fun p => Real.sqrt (p.1 ^ 2 + p.2 ^ 2)).length = 0 := by
      simpa [List.length_eq_zero] using h
    refine ⟨clip01 (((alpha * a) ^ 2 -
        ((((points.map fun p => Real.sqrt (p.1 ^ 2 + p.2 ^ 2)).countP
          fun x => decide (x ≤ alpha * a)) : ℝ) /
          (points.map fun p => Real.sqrt (p.1 ^ 2 + p.2 ^ 2)).length)) / (alpha * a) ^ 2),
      ?_, clip01_nonneg _, clip01_le_one _⟩
    rw [if_neg hz, if_neg hlen]
    rfl

/-- Witness for C9's amended claim at the one-point (all-identical) cloud
`[(0, 0)]` with `a = 0.68`, `alpha = 0.8`. -/
theorem C9_witness :
    ∃ v, central_void_score [((0 : ℝ), (0 : ℝ))] 0.68 0.8 = some v ∧ 0 ≤ v ∧ v ≤ 1 :=
  C9_nonempty_cloud_defined [((0 : ℝ), (0 : ℝ))] 0.68 0.8 (by simp)

/- ============================================================
   Claim C2 — what `prepare_ghz_state(3)` actually builds.
   ============================================================ -/

/-- The inverse square root of two, as a complex number. -/
noncomputable def invSqrt2 : ℂ := (((Real.sqrt 2)⁻¹ : ℝ) : ℂ)

lemma invSqrt2_mul_self : invSqrt2 * invSqrt2 = 1 / 2 := by
  unfold invSqrt2
  rw [← Complex.ofReal_mul, ← mul_inv, Real.mul_self_sqrt (by norm_num : (0 : ℝ) ≤ 2)]
  norm_num

lemma star_invSqrt2 : star invSqrt2 = invSqrt2 := by
  unfold invSqrt2
  exact Complex.conj_ofReal _

lemma H_full_mulVec_psi000 :
    H_full.mulVec psi000 = fun i => if i = 0 ∨ i = 4 then invSqrt2 else 0 := by
  funext i
  fin_cases i <;>
    simp +decide [H_full, kron24, Hmat, psi000, invSqrt2, Matrix.mulVec, Matrix.dotProduct,
      Fin.sum_univ_eight, Matrix.one_apply, Matrix.smul_apply]

lemma cnot01_fix :
    (cnot_gate 0 1).mulVec (fun i => if i = 0 ∨ i = 4 then invSqrt2 else 0) =
      fun i => if i = 0 ∨ i = 4 then invSqrt2 else 0 := by
  funext i
  fin_cases i <;>
    simp +decide [cnot_gate, Matrix.mulVec, Matrix.dotProduct, Fin.sum_univ_eight]

lemma cnot02_fix :
    (cnot_gate 0 2).mulVec (fun i => if i = 0 ∨ i = 4 then invSqrt2 else 0) =
      fun i => if i = 0 ∨ i = 4 then invSqrt2 else 0 := by
  funext i
  fin_cases i <;>
    simp +decide [cnot_gate, Matrix.mulVec, Matrix.dotProduct, Fin.sum_univ_eight]

lemma ghz_psi_eq : ghz_psi = fun i => if i = 0 ∨ i = 4 then invSqrt2 else 0 := by
  unfold ghz_psi
  rw [H_full_mulVec_psi000, cnot01_fix, cnot02_fix]

/-- The state actually prepared: `½·(E₀₀ + E₀₄ + E₄₀ + E₄₄)`. -/
noncomputable def rho_prepared : Mat8 :=
  Matrix.of fun i j => if (i = 0 ∨ i = 4) ∧ (j = 0 ∨ j = 4) then (1 / 2 : ℂ) else 0

lemma prepare_ghz_state_eq : prepare_ghz_state = rho_prepared := by
  unfold prepare_ghz_state rho_prepared
  rw [ghz_psi_eq]
  ext i j
  fin_cases i <;> fin_cases j <;>
    simp [Matrix.vecMulVec_apply, Pi.star_apply, star_invSqrt2, invSqrt2_mul_self]

/-- The single-qubit density matrix `|+⟩⟨+|` (all four entries `½`). -/
noncomputable def plus_dm : Matrix (Fin 2) (Fin 2) ℂ := Matrix.of fun _ _ => 1 / 2

/-- The single-qubit density matrix `|0⟩⟨0|`. -/
def zero_dm : Matrix (Fin 2) (Fin 2) ℂ := Matrix.of fun i j => if i = 0 ∧ j = 0 then 1 else 0

set_option maxHeartbeats 800000 in
/-- C2: `prepare_ghz_state(3)` does **not** return the GHZ state.  The
Hadamard is tensor-embedded at the `np.kron`-most-significant position while
the CNOTs read their control from the least significant bit (which stays 0),
so the CNOTs act trivially: the output is the **product** state
`|+⟩⟨+| ⊗ |0⟩⟨0| ⊗ |0⟩⟨0| = ½(|000⟩+|100⟩)(⟨000|+⟨100|)`, whose `(7,7)`
entry is `0`, whereas the GHZ density matrix promised by the spec has
`(7,7)` entry `½`. -/
theorem C2_prepare_is_product_not_ghz :
    prepare_ghz_state = kron24 plus_dm (kron22 zero_dm zero_dm) ∧
    prepare_ghz_state 7 7 = 0 ∧ ghz_spec_dm 7 7 = 1 / 2 := by
  refine ⟨?_, ?_, ?_⟩
  · rw [prepare_ghz_state_eq]
    ext i j
    fin_cases i <;> fin_cases j <;>
      simp +decide [rho_prepared, kron24, kron22, plus_dm, zero_dm]
  · rw [prepare_ghz_state_eq]
    simp +decide [rho_prepared]
  · have h : ghz_spec_dm 7 7 = invSqrt2 * star invSqrt2 := by
      simp [ghz_spec_dm, Matrix.vecMulVec_apply, Pi.star_apply, ghz_spec_vec, invSqrt2]
    rw [h, star_invSqrt2, invSqrt2_mul_self]

/- ============================================================
   Claim C8 — no `DimensionMismatch` rejection exists: the pillar
   functions simply compute on a state whose classical component has
   the wrong length.
   ============================================================ -/

/-- The eigenvalue array `np.linalg.eigvalsh(Q_0)` up to order: a single 1
and seven 0s. -/
noncomputable def eigs_Q0 : Fin 8 → ℝ := fun i => if i = 0 then 1 else 0

lemma filter_eigsQ0_10 :
    (Finset.univ.filter fun i => (1e-10 : ℝ) < eigs_Q0 i) = {0} := by
  ext x
  fin_cases x <;> simp [eigs_Q0] <;> norm_num

lemma filter_eigsQ0_12 :
    (Finset.univ.filter fun i => (1e-12 : ℝ) < eigs_Q0 i) = {0} := by
  ext x
  fin_cases x <;> simp [eigs_Q0] <;> norm_num

lemma mixing_score_0000 : compute_bit_mixing_score [0, 0, 0, 0] = 0 := by
  unfold compute_bit_mixing_score
  norm_num [List.range_succ, diff_abs_sum, List.countP_cons, List.count_cons,
    List.dedup_cons_of_mem, List.dedup_cons_of_not_mem, clip01]
  have h0 : 0 ≤ Real.logb 2 (1000000000001 / 1000000000000) :=
    Real.logb_nonneg (by norm_num) (by norm_num)
  have h1 : (3 / 10 : ℝ) * (-Real.logb 2 (1000000000001 / 1000000000000) / 2) ≤ 0 := by
    nlinarith
  rw [max_eq_left h1, min_eq_right zero_le_one]

/-- C8 counterexample: a state whose classical component has length 4 ≠ 8 is
not rejected — `compute_C_info` happily computes the value `0` on it
(no `DimensionMismatch` error exists anywhere in the code). -/
theorem C8_compute_C_info_no_dimension_check :
    compute_C_info ⟨[0, 0, 0, 0], Q_0, ∅, none⟩ eigs_Q0 = 0 := by
  unfold compute_C_info
  rw [filter_eigsQ0_10]
  norm_num [meanZ, parity, Q0_mul_Q0, Q0_trace, List.range_succ, Complex.one_re]
  rw [abs_of_pos] <;> norm_num

/-- C8 amended: the morphisms and pillar functions perform no dimension
check; on a composite state with a 4-bit classical component (and the valid
8×8 matrix `Q_0`) the pillar `compute_C_dyn` likewise computes a result
(the value `0`) instead of raising a `DimensionMismatch` error. -/
theorem C8_compute_C_dyn_no_dimension_check :
    compute_C_dyn ⟨[0, 0, 0, 0], Q_0, ∅, none⟩ eigs_Q0 = 0 := by
  unfold compute_C_dyn
  rw [filter_eigsQ0_12]
  have hm : compute_bit_mixing_score
      (⟨[0, 0, 0, 0], Q_0, ∅, none⟩ : SystemState).C = 0 := mixing_score_0000
  rw [hm]
  norm_num [Finset.card_singleton]

/- ============================================================
   Claim C7 — the quantum half of `f_dyn_inv` undoes `f_dyn` exactly.
   ============================================================ -/

lemma U_floquet_dag_eq_inv : U_floquet_dag = U_floquet⁻¹ := by
  unfold U_floquet_dag U_floquet
  have hA : (Complex.I * (TAU : ℂ)) • ising_hamiltonian =
      -((-Complex.I * (TAU : ℂ)) • ising_hamiltonian) := by
    rw [← neg_smul]
    congr 1
    ring
  have hB : (Complex.I * (TAU : ℂ)) • kick_hamiltonian =
      -((-Complex.I * (TAU : ℂ)) • kick_hamiltonian) := by
    rw [← neg_smul]
    congr 1
    ring
  rw [hA, hB, Matrix.exp_neg, Matrix.exp_neg, ← Matrix.mul_inv_rev]

lemma isUnit_U_total : IsUnit U_total := by
  unfold U_total U_floquet
  exact ((Matrix.isUnit_exp ℂ _).mul (Matrix.isUnit_exp ℂ _)).pow 5

lemma U_total_dag_eq_inv : U_total_dag = U_total⁻¹ := by
  unfold U_total_dag U_total
  rw [U_floquet_dag_eq_inv, Matrix.inv_pow']

lemma U_total_dag_mul_U_total : U_total_dag * U_total = 1 := by
  rw [U_total_dag_eq_inv]
  exact Matrix.nonsing_inv_mul _ (Matrix.isUnit_iff_isUnit_det _ |>.mp isUnit_U_total)

lemma U_totalH_mul_U_total_dagH : U_totalᴴ * U_total_dagᴴ = 1 := by
  have h := congrArg Matrix.conjTranspose U_total_dag_mul_U_total
  rwa [Matrix.conjTranspose_mul, Matrix.conjTranspose_one] at h

/-- C7: for every composite state with a valid density matrix, applying
`f_dyn` (`morphism_3_arnold_cat`) and then `f_dyn_inv` returns the quantum
component unchanged, exactly: the inverse conjugates by the exact inverse of
the total Floquet unitary. -/
theorem C7_f_dyn_quantum_roundtrip (s : SystemState) (h : IsValidDM s.Q) :
    (f_dyn_inv (morphism_3_arnold_cat s)).Q = s.Q := by
  show U_total_dag * (U_total * s.Q * U_totalᴴ) * U_total_dagᴴ = s.Q
  have hassoc : U_total_dag * (U_total * s.Q * U_totalᴴ) * U_total_dagᴴ =
      (U_total_dag * U_total) * s.Q * (U_totalᴴ * U_total_dagᴴ) := by
    simp only [Matrix.mul_assoc]
  rw [hassoc, U_total_dag_mul_U_total, U_totalH_mul_U_total_dagH,
    Matrix.one_mul, Matrix.mul_one]

lemma Q0_eq_diagonal : Q_0 = Matrix.diagonal (fun i => if i = 0 then 1 else 0) := by
  ext i j
  fin_cases i <;> fin_cases j <;> simp [Q_0, Matrix.diagonal]

lemma isValidDM_Q0 : IsValidDM Q_0 := by
  constructor
  · rw [Q0_eq_diagonal]
    refine Matrix.PosSemidef.diagonal ?_
    intro i
    dsimp only
    split
    · exact zero_le_one
    · exact le_refl 0
  · exact Q0_trace

/-- Witness for C7 at the origin state (valid density matrix `|000⟩⟨000|`). -/
theorem C7_witness :
    (f_dyn_inv (morphism_3_arnold_cat initial_state)).Q = initial_state.Q :=
  C7_f_dyn_quantum_roundtrip initial_state isValidDM_Q0

/- ============================================================
   Claim C3 — helper lemmas: positivity, projectors, measurement.
   ============================================================ -/

lemma dot_star_self (v : Fin 8 → ℂ) :
    Matrix.dotProduct (star v) v = ((∑ i, Complex.normSq (v i) : ℝ) : ℂ) := by
  simp only [Matrix.dotProduct, Pi.star_apply]
  push_cast
  refine Finset.sum_congr rfl fun i _ => ?_
  rw [Complex.star_def, mul_comm, Complex.mul_conj]

lemma sum_normSq_pos {v : Fin 8 → ℂ} (hv : v ≠ 0) :
    0 < ∑ i, Complex.normSq (v i) := by
  have h1 : ∃ i, v i ≠ 0 := by
    by_contra h
    push_neg at h
    exact hv (funext h)
  obtain ⟨i, hi⟩ := h1
  refine Finset.sum_pos' (fun j _ => Complex.normSq_nonneg _) ⟨i, Finset.mem_univ i, ?_⟩
  exact Complex.normSq_pos.mpr hi

lemma psd_eigen_nonneg {M : Mat8} (hM : M.PosSemidef) {μ : ℝ} {v : Fin 8 → ℂ}
    (hv : v ≠ 0) (he : M.mulVec v = (μ : ℂ) • v) : 0 ≤ μ := by
  have h0 : (0 : ℂ) ≤ Matrix.dotProduct (star v) (M.mulVec v) := hM.2 v
  rw [he, Matrix.dotProduct_smul, dot_star_self] at h0
  have hS : 0 < ∑ i, Complex.normSq (v i) := sum_normSq_pos hv
  have h1 : (0 : ℂ) ≤ ((μ * ∑ i, Complex.normSq (v i) : ℝ) : ℂ) := by
    rw [Complex.ofReal_mul]
    simpa using h0
  rw [Complex.zero_le_real] at h1
  nlinarith

lemma psd_real_smul {c : ℝ} (hc : 0 ≤ c) {M : Mat8} (h : M.PosSemidef) :
    ((c : ℂ) • M).PosSemidef := by
  constructor
  · have := h.1
    unfold Matrix.IsHermitian at this ⊢
    rw [Matrix.conjTranspose_smul, this, Complex.star_def, Complex.conj_ofReal]
  · intro x
    have h2 : (0 : ℂ) ≤ Matrix.dotProduct (star x) (M.mulVec x) := h.2 x
    rw [Matrix.smul_mulVec_assoc, Matrix.dotProduct_smul]
    rw [Complex.nonneg_iff] at h2 ⊢
    constructor
    · simp only [smul_eq_mul, Complex.mul_re, Complex.ofReal_re, Complex.ofReal_im]
      nlinarith [mul_nonneg hc h2.1]
    · simp only [smul_eq_mul, Complex.mul_im, Complex.ofReal_re, Complex.ofReal_im]
      rw [← h2.2]
      ring

lemma proj_hermitian (q : Fin 3) (o : Fin 2) :
    (projector_single_qubit q o)ᴴ = projector_single_qubit q o := by
  unfold projector_single_qubit
  rw [Matrix.diagonal_conjTranspose]
  refine congrArg Matrix.diagonal ?_
  funext i
  simp only [Pi.star_apply, apply_ite (star : ℂ → ℂ)]
  simp

lemma proj_mul_self (q : Fin 3) (o : Fin 2) :
    projector_single_qubit q o * projector_single_qubit q o = projector_single_qubit q o := by
  unfold projector_single_qubit
  rw [Matrix.diagonal_mul_diagonal]
  refine congrArg Matrix.diagonal ?_
  funext i
  by_cases hc : (if i.val.testBit q.val then (1 : Fin 2) else 0) = o <;> simp [hc]

lemma proj_sum_eq_one :
    projector_single_qubit 0 0 + projector_single_qubit 0 1 = 1 := by
  unfold projector_single_qubit
  rw [Matrix.diagonal_add, ← Matrix.diagonal_one]
  refine congrArg Matrix.diagonal ?_
  funext i
  by_cases hb : i.val.testBit 0 <;> simp +decide [hb]

lemma psd_proj_conj {ρ : Mat8} (h : ρ.PosSemidef) (q : Fin 3) (o : Fin 2) :
    (projector_single_qubit q o * ρ * projector_single_qubit q o).PosSemidef := by
  have := h.mul_mul_conjTranspose_same (projector_single_qubit q o)
  rwa [proj_hermitian] at this

lemma trace_proj_conj {ρ : Mat8} (q : Fin 3) (o : Fin 2) :
    (projector_single_qubit q o * ρ * projector_single_qubit q o).trace =
      (projector_single_qubit q o * ρ).trace := by
  rw [Matrix.trace_mul_cycle, proj_mul_self]

lemma psd_one_mat : (1 : Mat8).PosSemidef := by
  rw [← Matrix.diagonal_one]
  exact Matrix.PosSemidef.diagonal fun i => zero_le_one

lemma measure_post_valid {ρ : Mat8} (h : IsValidDM ρ) :
    IsValidDM (measure_qubit_post ρ) := by
  constructor
  · unfold measure_qubit_post
    refine Matrix.PosSemidef.add (psd_real_smul (by norm_num [depol_strength]) ?_)
      (psd_real_smul (by norm_num [depol_strength]) ?_)
    · exact Matrix.PosSemidef.add (psd_proj_conj h.1 0 0) (psd_proj_conj h.1 0 1)
    · have h8 : ((8 : ℂ)⁻¹ • (1 : Mat8)) = (((8 : ℝ)⁻¹ : ℝ) : ℂ) • (1 : Mat8) := by
        norm_num
      rw [h8]
      exact psd_real_smul (by norm_num) psd_one_mat
  · unfold measure_qubit_post
    rw [Matrix.trace_add, Matrix.trace_smul, Matrix.trace_smul, Matrix.trace_add,
      trace_proj_conj, trace_proj_conj, ← Matrix.trace_add, ← Matrix.add_mul,
      proj_sum_eq_one, Matrix.one_mul, h.2, Matrix.trace_smul, Matrix.trace_one]
    simp [depol_strength]

lemma kron24_conjTranspose (A : Matrix (Fin 2) (Fin 2) ℂ) (B : Matrix (Fin 4) (Fin 4) ℂ) :
    (kron24 A B)ᴴ = kron24 Aᴴ Bᴴ := by
  ext i j
  simp [kron24, Matrix.conjTranspose_apply, star_mul']

lemma kron22_conjTranspose (A B : Matrix (Fin 2) (Fin 2) ℂ) :
    (kron22 A B)ᴴ = kron22 Aᴴ Bᴴ := by
  ext i j
  simp [kron22, Matrix.conjTranspose_apply, star_mul']

lemma Z2_hermitian : Z2ᴴ = Z2 := by
  ext i j
  fin_cases i <;> fin_cases j <;> simp [Z2, Matrix.conjTranspose_apply]

lemma X2_hermitian : X2ᴴ = X2 := by
  ext i j
  fin_cases i <;> fin_cases j <;> simp [X2, Matrix.conjTranspose_apply]

lemma ising_hermitian : ising_hamiltonian.IsHermitian := by
  unfold Matrix.IsHermitian ising_hamiltonian
  rw [Matrix.conjTranspose_add, Matrix.conjTranspose_smul, Matrix.conjTranspose_smul,
    kron24_conjTranspose, kron24_conjTranspose, kron22_conjTranspose, kron22_conjTranspose,
    Z2_hermitian, Matrix.conjTranspose_one, Complex.star_def, Complex.conj_ofReal]

lemma kick_hermitian : kick_hamiltonian.IsHermitian := by
  unfold Matrix.IsHermitian kick_hamiltonian
  rw [Matrix.conjTranspose_add, Matrix.conjTranspose_add, Matrix.conjTranspose_smul,
    Matrix.conjTranspose_smul, Matrix.conjTranspose_smul, kron24_conjTranspose,
    kron24_conjTranspose, kron24_conjTranspose, kron22_conjTranspose, kron22_conjTranspose,
    kron22_conjTranspose, X2_hermitian, Matrix.conjTranspose_one, Complex.star_def,
    Complex.conj_ofReal]

/-- Unitarity in both directions. -/
def IsUnitary (U : Mat8) : Prop := Uᴴ * U = 1 ∧ U * Uᴴ = 1

lemma isUnitary_mul {U V : Mat8} (hU : IsUnitary U) (hV : IsUnitary V) :
    IsUnitary (U * V) := by
  constructor
  · have h : Vᴴ * Uᴴ * (U * V) = Vᴴ * (Uᴴ * U) * V := by
      simp only [Matrix.mul_assoc]
    rw [Matrix.conjTranspose_mul, h, hU.1, Matrix.mul_one, hV.1]
  · have h : U * V * (Vᴴ * Uᴴ) = U * (V * Vᴴ) * Uᴴ := by
      simp only [Matrix.mul_assoc]
    rw [Matrix.conjTranspose_mul, h, hV.2, Matrix.mul_one, hU.2]

lemma isUnitary_pow {U : Mat8} (hU : IsUnitary U) (n : ℕ) : IsUnitary (U ^ n) := by
  induction n with
  | zero => constructor <;> simp
  | succ k ih =>
    rw [pow_succ]
    exact isUnitary_mul ih hU

lemma isUnitary_exp_smul {H : Mat8} (hH : H.IsHermitian) {c : ℂ} (hc : star c = -c) :
    IsUnitary (NormedSpace.exp ℂ (c • H)) := by
  have hconj : (NormedSpace.exp ℂ (c • H))ᴴ = (NormedSpace.exp ℂ (c • H))⁻¹ := by
    rw [← Matrix.exp_conjTranspose, Matrix.conjTranspose_smul, hH.eq, hc, neg_smul,
      Matrix.exp_neg]
  have hUnit : IsUnit (NormedSpace.exp ℂ (c • H)).det :=
    (Matrix.isUnit_iff_isUnit_det _).mp (Matrix.isUnit_exp ℂ _)
  exact ⟨by rw [hconj]; exact Matrix.nonsing_inv_mul _ hUnit,
    by rw [hconj]; exact Matrix.mul_nonsing_inv _ hUnit⟩

lemma star_neg_I_tau : star (-Complex.I * (TAU : ℂ)) = -(-Complex.I * (TAU : ℂ)) := by
  simp [Complex.star_def, map_mul, Complex.conj_I, Complex.conj_ofReal]

lemma star_I_tau : star (Complex.I * (TAU : ℂ)) = -(Complex.I * (TAU : ℂ)) := by
  simp [Complex.star_def, map_mul, Complex.conj_I, Complex.conj_ofReal]

lemma isUnitary_U_total : IsUnitary U_total := by
  unfold U_total U_floquet
  exact isUnitary_pow (isUnitary_mul (isUnitary_exp_smul ising_hermitian star_neg_I_tau)
    (isUnitary_exp_smul kick_hermitian star_neg_I_tau)) 5

lemma isUnitary_U_total_dag : IsUnitary U_total_dag := by
  unfold U_total_dag U_floquet_dag
  exact isUnitary_pow (isUnitary_mul (isUnitary_exp_smul kick_hermitian star_I_tau)
    (isUnitary_exp_smul ising_hermitian star_I_tau)) 5

lemma conj_valid {U ρ : Mat8} (hU : Uᴴ * U = 1) (h : IsValidDM ρ) :
    IsValidDM (U * ρ * Uᴴ) := by
  constructor
  · exact h.1.mul_mul_conjTranspose_same U
  · rw [Matrix.trace_mul_cycle, hU, Matrix.one_mul, h.2]

lemma vecMulVec_psd (v : Fin 8 → ℂ) : (Matrix.vecMulVec v (star v)).PosSemidef := by
  constructor
  · show (Matrix.vecMulVec v (star v))ᴴ = Matrix.vecMulVec v (star v)
    ext i j
    simp only [Matrix.conjTranspose_apply, Matrix.vecMulVec_apply, Pi.star_apply, star_mul',
      star_star]
    ring
  · intro x
    have hmv : (Matrix.vecMulVec v (star v)).mulVec x =
        (Matrix.dotProduct (star v) x) • v := by
      funext i
      simp only [Matrix.mulVec, Matrix.dotProduct, Matrix.vecMulVec_apply, Pi.smul_apply,
        smul_eq_mul]
      rw [Finset.sum_mul]
      exact Finset.sum_congr rfl fun j _ => by ring
    have hsw : Matrix.dotProduct (star x) v = star (Matrix.dotProduct (star v) x) := by
      simp only [Matrix.dotProduct, star_sum, star_mul', star_star, Pi.star_apply]
      exact Finset.sum_congr rfl fun j _ => by ring
    rw [hmv, Matrix.dotProduct_smul, smul_eq_mul, hsw]
    exact mul_star_self_nonneg _

lemma vecMulVec_trace {v : Fin 8 → ℂ} (hv : UnitVec v) :
    (Matrix.vecMulVec v (star v)).trace = 1 := by
  unfold Matrix.trace
  have h : ∀ i, Matrix.diag (Matrix.vecMulVec v (star v)) i =
      ((Complex.normSq (v i) : ℝ) : ℂ) := by
    intro i
    simp only [Matrix.diag, Matrix.vecMulVec_apply, Pi.star_apply, Complex.star_def]
    exact Complex.mul_conj _
  rw [Finset.sum_congr rfl fun i _ => h i, ← Complex.ofReal_sum]
  rw [show ∑ i, Complex.normSq (v i) = 1 from hv]
  norm_num

lemma vecMulVec_valid {v : Fin 8 → ℂ} (hv : UnitVec v) :
    IsValidDM (Matrix.vecMulVec v (star v)) :=
  ⟨vecMulVec_psd v, vecMulVec_trace hv⟩

lemma unitVec_iff_dot (w : Fin 8 → ℂ) :
    UnitVec w ↔ Matrix.dotProduct (star w) w = 1 := by
  rw [dot_star_self]
  unfold UnitVec
  constructor
  · intro h
    rw [h]
    norm_num
  · intro h
    exact_mod_cast h

lemma unitVec_mulVec {U : Mat8} (hU : Uᴴ * U = 1) {v : Fin 8 → ℂ} (hv : UnitVec v) :
    UnitVec (U.mulVec v) := by
  rw [unitVec_iff_dot] at hv ⊢
  rw [Matrix.star_mulVec, Matrix.dotProduct_mulVec, Matrix.vecMul_vecMul, hU,
    Matrix.vecMul_one]
  exact hv

set_option maxHeartbeats 3200000 in
lemma cnot01_unitary : (cnot_gate 0 1)ᴴ * cnot_gate 0 1 = 1 := by
  ext i j
  fin_cases i <;> fin_cases j <;>
    simp +decide [cnot_gate, Matrix.mul_apply, Matrix.conjTranspose_apply,
      Fin.sum_univ_eight, Matrix.one_apply]

lemma kron24_smul (c : ℂ) (A : Matrix (Fin 2) (Fin 2) ℂ) (B : Matrix (Fin 4) (Fin 4) ℂ) :
    kron24 (c • A) B = c • kron24 A B := by
  ext i j
  simp only [kron24, Matrix.of_apply, Matrix.smul_apply, smul_eq_mul]
  ring

/-- The integer Hadamard kernel `[[1, 1], [1, -1]]`, tensor-embedded. -/
def H_kernel : Mat8 :=
  kron24 (Matrix.of fun a b => if a = 1 ∧ b = 1 then -1 else 1) 1

lemma Hmat_eq_smul_kernel : Hmat = invSqrt2 • Matrix.of fun a b =>
    if a = (1 : Fin 2) ∧ b = (1 : Fin 2) then (-1 : ℂ) else 1 := by
  ext i j
  fin_cases i <;> fin_cases j <;> simp [Hmat, invSqrt2]

lemma H_full_eq : H_full = invSqrt2 • H_kernel := by
  unfold H_full H_kernel
  rw [Hmat_eq_smul_kernel, kron24_smul]

set_option maxHeartbeats 3200000 in
lemma H_kernel_sq : H_kernelᴴ * H_kernel = (2 : ℂ) • 1 := by
  ext i j
  fin_cases i <;> fin_cases j <;>
    simp +decide [H_kernel, kron24, Matrix.mul_apply, Matrix.conjTranspose_apply,
      Fin.sum_univ_eight, Matrix.one_apply, Matrix.smul_apply] <;>
    norm_num

lemma H_full_unitary : H_fullᴴ * H_full = 1 := by
  rw [H_full_eq, Matrix.conjTranspose_smul, star_invSqrt2, Matrix.smul_mul,
    Matrix.mul_smul, H_kernel_sq, smul_smul, smul_smul, invSqrt2_mul_self]
  norm_num

/-- The validity condition as the claim states it: Hermitian, trace 1 within
`1e-6`, no eigenvalue below `-1e-8`. -/
def ClaimValid (M : Mat8) : Prop :=
  M.IsHermitian ∧ Complex.abs (M.trace - 1) ≤ 1e-6 ∧
    ∀ (μ : ℝ) (v : Fin 8 → ℂ), v ≠ 0 → M.mulVec v = (μ : ℂ) • v → -(1e-8) ≤ μ

lemma valid_claimValid {M : Mat8} (h : IsValidDM M) : ClaimValid M := by
  refine ⟨h.1.1, ?_, ?_⟩
  · rw [h.2, sub_self]
    norm_num
  · intro μ v hv he
    have h0 := psd_eigen_nonneg h.1 hv he
    linarith [show (0 : ℝ) ≤ 1e-8 by norm_num]

lemma normSq_invSqrt2 : Complex.normSq invSqrt2 = 1 / 2 := by
  unfold invSqrt2
  rw [Complex.normSq_ofReal, ← mul_inv, Real.mul_self_sqrt (by norm_num : (0 : ℝ) ≤ 2)]
  norm_num

lemma unitVec_ghz_psi : UnitVec ghz_psi := by
  rw [ghz_psi_eq]
  unfold UnitVec
  simp [Fin.sum_univ_eight, apply_ite Complex.normSq, normSq_invSqrt2]
  norm_num

lemma unitVec_psi000 : UnitVec psi000 := by
  unfold UnitVec psi000
  simp [Fin.sum_univ_eight, apply_ite Complex.normSq]

lemma prepare_valid : IsValidDM prepare_ghz_state :=
  vecMulVec_valid unitVec_ghz_psi

/-- C3: each of the five forward morphisms (`f_alg`, `f_info`, `f_dyn`,
`f_geom`, and the closing composition `φ`) and each of the four inverse
morphisms maps a composite state with a valid density matrix to a state
whose quantum component is Hermitian, has trace within `1e-6` of 1 and has
no eigenvalue below `-1e-8`.  The normalized dominant eigenvectors that
`f_info_inv`/`f_alg_inv` read off `np.linalg.eigh` are the `UnitVec`
parameters. -/
theorem C3_morphisms_preserve_validity :
    (∀ s : SystemState, IsValidDM s.Q →
      ClaimValid (morphism_1_circuit_compilation s).Q) ∧
    (∀ (s : SystemState) (o : Fin 2), IsValidDM s.Q →
      ClaimValid (morphism_2_syndrome_encoding s o).Q) ∧
    (∀ s : SystemState, IsValidDM s.Q → ClaimValid (morphism_3_arnold_cat s).Q) ∧
    (∀ (s : SystemState) (pts : List (ℝ × ℝ)), IsValidDM s.Q →
      ClaimValid (morphism_4_disk_to_annulus s pts).Q) ∧
    (∀ (s : SystemState) (v w : Fin 8 → ℂ), IsValidDM s.Q → UnitVec v → UnitVec w →
      ClaimValid (phi_closing_isomorphism s v w).Q) ∧
    (∀ s : SystemState, IsValidDM s.Q → ClaimValid (f_geom_inv s).Q) ∧
    (∀ s : SystemState, IsValidDM s.Q → ClaimValid (f_dyn_inv s).Q) ∧
    (∀ (s : SystemState) (v : Fin 8 → ℂ), UnitVec v → ClaimValid (f_info_inv s v).Q) ∧
    (∀ (s : SystemState) (w : Fin 8 → ℂ), UnitVec w → ClaimValid (f_alg_inv s w).Q) := by
  have halg : ∀ (s : SystemState) (w : Fin 8 → ℂ), UnitVec w →
      ClaimValid (f_alg_inv s w).Q := by
    intro s w hw
    exact valid_claimValid (vecMulVec_valid
      (unitVec_mulVec H_full_unitary (unitVec_mulVec cnot01_unitary hw)))
  refine ⟨?_, ?_, ?_, ?_, ?_, ?_, ?_, ?_, halg⟩
  · intro s _
    exact valid_claimValid prepare_valid
  · intro s o h
    exact valid_claimValid (measure_post_valid h)
  · intro s h
    exact valid_claimValid (conj_valid isUnitary_U_total.1 h)
  · intro s pts h
    exact valid_claimValid h
  · intro s v w _ _ hw
    exact halg _ w hw
  · intro s h
    exact valid_claimValid h
  · intro s h
    exact valid_claimValid (conj_valid isUnitary_U_total_dag.1 h)
  · intro s v hv
    exact valid_claimValid (vecMulVec_valid hv)

/-- Witness for C3: every conjunct applied at the origin state (valid
density matrix `|000⟩⟨000|`), measurement outcome 0, the empty disk draw
and the unit eigenvector `|000⟩`. -/
theorem C3_witness :
    ClaimValid (morphism_1_circuit_compilation initial_state).Q ∧
    ClaimValid (morphism_2_syndrome_encoding initial_state 0).Q ∧
    ClaimValid (morphism_3_arnold_cat initial_state).Q ∧
    ClaimValid (morphism_4_disk_to_annulus initial_state []).Q ∧
    ClaimValid (phi_closing_isomorphism initial_state psi000 psi000).Q ∧
    ClaimValid (f_geom_inv initial_state).Q ∧
    ClaimValid (f_dyn_inv initial_state).Q ∧
    ClaimValid (f_info_inv initial_state psi000).Q ∧
    ClaimValid (f_alg_inv initial_state psi000).Q :=
  ⟨C3_morphisms_preserve_validity.1 initial_state isValidDM_Q0,
    C3_morphisms_preserve_validity.2.1 initial_state 0 isValidDM_Q0,
    C3_morphisms_preserve_validity.2.2.1 initial_state isValidDM_Q0,
    C3_morphisms_preserve_validity.2.2.2.1 initial_state [] isValidDM_Q0,
    C3_morphisms_preserve_validity.2.2.2.2.1 initial_state psi000 psi000 isValidDM_Q0
      unitVec_psi000 unitVec_psi000,
    C3_morphisms_preserve_validity.2.2.2.2.2.1 initial_state isValidDM_Q0,
    C3_morphisms_preserve_validity.2.2.2.2.2.2.1 initial_state isValidDM_Q0,
    C3_morphisms_preserve_validity.2.2.2.2.2.2.2.1 initial_state psi000 unitVec_psi000,
    C3_morphisms_preserve_validity.2.2.2.2.2.2.2.2 initial_state psi000 unitVec_psi000⟩

/- ============================================================
   Claim C4 — pillar ranges: spectrum and list helper lemmas.
   ============================================================ -/

lemma isSpectrum_Q0 : IsSpectrum Q_0 eigs_Q0 := by
  refine ⟨1, by simp, by simp, ?_⟩
  rw [Matrix.conjTranspose_one, Matrix.one_mul, Matrix.mul_one, Q0_eq_diagonal]
  refine congrArg Matrix.diagonal ?_
  funext i
  simp [eigs_Q0, apply_ite (fun r : ℝ => (r : ℂ))]

lemma trace_diag_sq (eigs : Fin 8 → ℝ) :
    (Matrix.diagonal (fun i => (eigs i : ℂ)) * Matrix.diagonal (fun i => (eigs i : ℂ))).trace =
      ((∑ i, (eigs i) ^ 2 : ℝ) : ℂ) := by
  rw [Matrix.diagonal_mul_diagonal, Matrix.trace_diagonal]
  push_cast
  exact Finset.sum_congr rfl fun i _ => by ring

lemma spectrum_conj_sq {Q : Mat8} {eigs : Fin 8 → ℝ} (hs : IsSpectrum Q eigs) :
    ((Q * Q).trace).re = ∑ i, (eigs i) ^ 2 := by
  obtain ⟨U, hU1, _, rfl⟩ := hs
  set D := Matrix.diagonal (fun i => (eigs i : ℂ)) with hD
  have hmm : U * D * Uᴴ * (U * D * Uᴴ) = U * (D * D) * Uᴴ := by
    have h1 : U * D * Uᴴ * (U * D * Uᴴ) = U * D * (Uᴴ * U) * (D * Uᴴ) := by
      simp only [Matrix.mul_assoc]
    rw [h1, hU1, Matrix.mul_one]
    simp only [Matrix.mul_assoc]
  rw [hmm, Matrix.trace_mul_cycle, ← Matrix.mul_assoc, hU1, Matrix.one_mul, trace_diag_sq]
  exact Complex.ofReal_re _

lemma spectrum_trace {Q : Mat8} {eigs : Fin 8 → ℝ} (hs : IsSpectrum Q eigs) :
    Q.trace = ((∑ i, eigs i : ℝ) : ℂ) := by
  obtain ⟨U, hU1, _, rfl⟩ := hs
  rw [Matrix.trace_mul_cycle, hU1, Matrix.one_mul, Matrix.trace_diagonal]
  push_cast
  rfl

lemma eigs_sum_one {Q : Mat8} {eigs : Fin 8 → ℝ} (hval : IsValidDM Q)
    (hs : IsSpectrum Q eigs) : ∑ i, eigs i = 1 := by
  have h := spectrum_trace hs
  rw [hval.2] at h
  exact_mod_cast h.symm

lemma eigs_nonneg {Q : Mat8} {eigs : Fin 8 → ℝ} (hval : IsValidDM Q)
    (hs : IsSpectrum Q eigs) : ∀ i, 0 ≤ eigs i := by
  intro i
  obtain ⟨U, hU1, hU2, hQ⟩ := hs
  set D := Matrix.diagonal (fun i => (eigs i : ℂ)) with hD
  have hDs : D.mulVec (Pi.single i 1) =
      ((eigs i : ℝ) : ℂ) • (Pi.single i 1 : Fin 8 → ℂ) := by
    funext j
    rw [hD, Matrix.mulVec_diagonal]
    by_cases hji : j = i
    · subst hji
      simp
    · simp [Pi.single_apply, hji]
  have hvec : Q.mulVec (U.mulVec (Pi.single i 1)) =
      ((eigs i : ℝ) : ℂ) • U.mulVec (Pi.single i 1) := by
    rw [hQ, Matrix.mulVec_mulVec]
    have h1 : U * D * Uᴴ * U = U * D := by
      have h2 : U * D * Uᴴ * U = U * D * (Uᴴ * U) := by
        simp only [Matrix.mul_assoc]
      rw [h2, hU1, Matrix.mul_one]
    rw [h1, ← Matrix.mulVec_mulVec, hDs, Matrix.mulVec_smul]
  have hnz : U.mulVec (Pi.single i 1) ≠ 0 := by
    intro hz
    have h0 : Uᴴ.mulVec (U.mulVec (Pi.single i 1)) = Uᴴ.mulVec 0 := by rw [hz]
    rw [Matrix.mulVec_mulVec, hU1, Matrix.one_mulVec, Matrix.mulVec_zero] at h0
    have := congrFun h0 i
    simp [Pi.single_apply] at this
  exact psd_eigen_nonneg hval.1 hnz hvec

lemma eigs_le_one {Q : Mat8} {eigs : Fin 8 → ℝ} (hval : IsValidDM Q)
    (hs : IsSpectrum Q eigs) : ∀ i, eigs i ≤ 1 := by
  intro i
  have h1 := eigs_sum_one hval hs
  have h0 := eigs_nonneg hval hs
  calc eigs i ≤ ∑ j, eigs j :=
        Finset.single_le_sum (fun j _ => h0 j) (Finset.mem_univ i)
    _ = 1 := h1

lemma purity_mem {Q : Mat8} {eigs : Fin 8 → ℝ} (hval : IsValidDM Q)
    (hs : IsSpectrum Q eigs) :
    0 ≤ ((Q * Q).trace).re ∧ ((Q * Q).trace).re ≤ 1 := by
  rw [spectrum_conj_sq hs]
  constructor
  · exact Finset.sum_nonneg fun i _ => sq_nonneg _
  · have hstep : ∑ i, (eigs i) ^ 2 ≤ ∑ i, eigs i := by
      refine Finset.sum_le_sum fun i _ => ?_
      have h0 := eigs_nonneg hval hs i
      have h1 := eigs_le_one hval hs i
      nlinarith
    linarith [eigs_sum_one hval hs]

lemma sum_bits_bounds : ∀ (C : List ℤ), (∀ x ∈ C, 0 ≤ x ∧ x ≤ 1) →
    0 ≤ C.sum ∧ C.sum ≤ (C.length : ℤ) := by
  intro C
  induction C with
  | nil =>
    intro _
    simp
  | cons a t ih =>
    intro h
    have ha := h a (by simp)
    have ht := ih fun x hx => h x (by simp [hx])
    simp only [List.sum_cons, List.length_cons]
    push_cast
    omega

lemma zip_abs_bounds : ∀ (l1 l2 : List ℤ), (∀ x ∈ l1, 0 ≤ x ∧ x ≤ 1) →
    (∀ x ∈ l2, 0 ≤ x ∧ x ≤ 1) →
    0 ≤ (l1.zipWith (fun a b => |b - a|) l2).sum ∧
      (l1.zipWith (fun a b => |b - a|) l2).sum ≤
        ((l1.zipWith (fun a b => |b - a|) l2).length : ℤ) := by
  intro l1
  induction l1 with
  | nil =>
    intro l2 _ _
    simp
  | cons a t ih =>
    intro l2 h1 h2
    cases l2 with
    | nil => simp
    | cons b u =>
      have ha := h1 a (by simp)
      have hb := h2 b (by simp)
      have ht := ih u (fun x hx => h1 x (by simp [hx])) (fun x hx => h2 x (by simp [hx]))
      simp only [List.zipWith_cons_cons, List.sum_cons, List.length_cons]
      push_cast
      obtain ⟨ht1, ht2⟩ := ht
      have habs0 : 0 ≤ |b - a| := abs_nonneg _
      have habs1 : |b - a| ≤ 1 := by
        rw [abs_sub_le_iff]
        omega
      constructor <;> omega

lemma bits01 {C : List ℤ} (h : ∀ x ∈ C, x = 0 ∨ x = 1) : ∀ x ∈ C, 0 ≤ x ∧ x ≤ 1 := by
  intro x hx
  rcases h x hx with rfl | rfl <;> omega

lemma meanZ_bounds {l : List ℤ} (h : ∀ x ∈ l, 0 ≤ x ∧ x ≤ 1) :
    0 ≤ meanZ l ∧ meanZ l ≤ 1 := by
  unfold meanZ
  rcases Nat.eq_zero_or_pos l.length with hl | hl
  · rw [hl]
    norm_num
  · have hb := sum_bits_bounds l h
    have hlen : (0 : ℝ) < l.length := by exact_mod_cast hl
    constructor
    · apply div_nonneg _ hlen.le
      exact_mod_cast hb.1
    · rw [div_le_one hlen]
      exact_mod_cast hb.2

lemma parity_mem (l : List ℤ) : 0 ≤ parity l ∧ parity l ≤ 1 := by
  unfold parity
  constructor
  · exact Int.emod_nonneg _ (by norm_num)
  · have := Int.emod_lt_of_pos l.sum (by norm_num : (0 : ℤ) < 2)
    omega

lemma rank_bounds {eigs : Fin 8 → ℝ} (h0 : ∀ i, 0 ≤ eigs i) (h1 : ∑ i, eigs i = 1) :
    1 ≤ (Finset.univ.filter fun i => (1e-10 : ℝ) < eigs i).card ∧
      (Finset.univ.filter fun i => (1e-10 : ℝ) < eigs i).card ≤ 8 := by
  constructor
  · rw [Nat.one_le_iff_ne_zero, ← Nat.pos_iff_ne_zero, Finset.card_pos]
    by_contra hempty
    rw [Finset.not_nonempty_iff_eq_empty, Finset.filter_eq_empty_iff] at hempty
    push_neg at hempty
    have hle : ∑ i, eigs i ≤ ∑ _i : Fin 8, (1e-10 : ℝ) :=
      Finset.sum_le_sum fun i _ => hempty (Finset.mem_univ i)
    rw [Finset.sum_const, Finset.card_univ] at hle
    norm_num at hle
    linarith
  · calc (Finset.univ.filter fun i => (1e-10 : ℝ) < eigs i).card
        ≤ Finset.univ.card := Finset.card_filter_le _ _
    _ = 8 := by simp

lemma entropy_le_three {eigs : Fin 8 → ℝ} (h0 : ∀ i, 0 ≤ eigs i)
    (h1 : ∑ i, eigs i = 1) :
    -(∑ i ∈ Finset.univ.filter (fun i => (1e-12 : ℝ) < eigs i),
        eigs i * Real.logb 2 (eigs i + 1e-12)) ≤ 3 := by
  have hL2 : 0 < Real.log 2 := Real.log_pos (by norm_num)
  have hle1 : ∀ i, eigs i ≤ 1 := fun i =>
    (Finset.single_le_sum (fun j _ => h0 j) (Finset.mem_univ i)).trans h1.le
  have hterm : ∀ i ∈ Finset.univ.filter (fun i => (1e-12 : ℝ) < eigs i),
      -(eigs i * Real.logb 2 (eigs i + 1e-12)) ≤ Real.negMulLog (eigs i) / Real.log 2 := by
    intro i hi
    have hpos : (1e-12 : ℝ) < eigs i := (Finset.mem_filter.mp hi).2
    have hlb : Real.logb 2 (eigs i) ≤ Real.logb 2 (eigs i + 1e-12) :=
      Real.logb_le_logb_of_le (by norm_num) (by linarith) (by linarith)
    have hmul : eigs i * Real.logb 2 (eigs i) ≤ eigs i * Real.logb 2 (eigs i + 1e-12) :=
      mul_le_mul_of_nonneg_left hlb (by linarith)
    have heq : -(eigs i * Real.logb 2 (eigs i)) = Real.negMulLog (eigs i) / Real.log 2 := by
      rw [Real.negMulLog, Real.logb]
      ring
    linarith [heq.symm.le, hmul]
  have hjensen : ∑ i, Real.negMulLog (eigs i) ≤ Real.log 8 := by
    have hcc : (∑ i : Fin 8, (1 / 8 : ℝ) • Real.negMulLog (eigs i)) ≤
        Real.negMulLog (∑ i : Fin 8, (1 / 8 : ℝ) • eigs i) :=
      Real.concaveOn_negMulLog.le_map_sum (fun i _ => by norm_num)
        (by rw [Finset.sum_const, Finset.card_univ]; norm_num)
        (fun i _ => Set.mem_Ici.mpr (h0 i))
    simp only [smul_eq_mul] at hcc
    rw [← Finset.mul_sum, ← Finset.mul_sum, h1, mul_one] at hcc
    have h18 : Real.negMulLog (1 / 8 : ℝ) = (1 / 8 : ℝ) * Real.log 8 := by
      rw [Real.negMulLog, one_div, Real.log_inv]
      ring
    rw [h18] at hcc
    linarith
  have hsum : -(∑ i ∈ Finset.univ.filter (fun i => (1e-12 : ℝ) < eigs i),
      eigs i * Real.logb 2 (eigs i + 1e-12)) ≤
      ∑ i ∈ Finset.univ.filter (fun i => (1e-12 : ℝ) < eigs i),
        Real.negMulLog (eigs i) / Real.log 2 := by
    have h := Finset.sum_le_sum hterm
    rwa [Finset.sum_neg_distrib] at h
  have hsub : ∑ i ∈ Finset.univ.filter (fun i => (1e-12 : ℝ) < eigs i),
      Real.negMulLog (eigs i) / Real.log 2 ≤
      ∑ i : Fin 8, Real.negMulLog (eigs i) / Real.log 2 := by
    refine Finset.sum_le_sum_of_subset_of_nonneg (Finset.filter_subset _ _) ?_
    intro i _ _
    exact div_nonneg (Real.negMulLog_nonneg (h0 i) (hle1 i)) hL2.le
  have hfin : ∑ i : Fin 8, Real.negMulLog (eigs i) / Real.log 2 ≤ 3 := by
    rw [← Finset.sum_div]
    rw [div_le_iff hL2]
    have h8 : Real.log 8 = 3 * Real.log 2 := by
      rw [show (8 : ℝ) = 2 ^ 3 by norm_num, Real.log_pow]
      push_cast
      ring
    linarith [hjensen]
  linarith

lemma entropy_lower {eigs : Fin 8 → ℝ} (h0 : ∀ i, 0 ≤ eigs i)
    (h1 : ∑ i, eigs i = 1) :
    -(Real.logb 2 (1 + 1e-12)) ≤
      -(∑ i ∈ Finset.univ.filter (fun i => (1e-12 : ℝ) < eigs i),
        eigs i * Real.logb 2 (eigs i + 1e-12)) := by
  have hlogb0 : 0 ≤ Real.logb 2 (1 + 1e-12) := Real.logb_nonneg (by norm_num) (by norm_num)
  have hle1 : ∀ i, eigs i ≤ 1 := fun i =>
    (Finset.single_le_sum (fun j _ => h0 j) (Finset.mem_univ i)).trans h1.le
  have hterm : ∀ i ∈ Finset.univ.filter (fun i => (1e-12 : ℝ) < eigs i),
      eigs i * Real.logb 2 (eigs i + 1e-12) ≤ eigs i * Real.logb 2 (1 + 1e-12) := by
    intro i hi
    have hpos : (1e-12 : ℝ) < eigs i := (Finset.mem_filter.mp hi).2
    refine mul_le_mul_of_nonneg_left ?_ (h0 i)
    exact Real.logb_le_logb_of_le (by norm_num) (by linarith) (by linarith [hle1 i])
  have hsum1 : ∑ i ∈ Finset.univ.filter (fun i => (1e-12 : ℝ) < eigs i),
      eigs i * Real.logb 2 (eigs i + 1e-12) ≤
      ∑ i ∈ Finset.univ.filter (fun i => (1e-12 : ℝ) < eigs i),
        eigs i * Real.logb 2 (1 + 1e-12) :=
    Finset.sum_le_sum hterm
  have hsum2 : ∑ i ∈ Finset.univ.filter (fun i => (1e-12 : ℝ) < eigs i),
      eigs i * Real.logb 2 (1 + 1e-12) ≤ Real.logb 2 (1 + 1e-12) := by
    rw [← Finset.sum_mul]
    have hsub : ∑ i ∈ Finset.univ.filter (fun i => (1e-12 : ℝ) < eigs i), eigs i ≤ 1 := by
      rw [← h1]
      exact Finset.sum_le_sum_of_subset_of_nonneg (Finset.filter_subset _ _)
        fun i _ _ => h0 i
    nlinarith
  linarith

lemma compute_C_alg_eq (C : List ℤ) (Q : Mat8) (tags : Finset String)
    (pts : Option (List (ℝ × ℝ))) (eigs : Fin 8 → ℝ) (h : 1 < C.length) :
    compute_C_alg ⟨C, Q, tags, pts⟩ eigs =
      0.3 * (0.5 * ((C.sum : ℝ) / C.length) +
        0.5 * ((diff_abs_sum C : ℝ) / ((C.length : ℝ) - 1))) +
      0.7 * (0.5 * (1 - ((Q * Q).trace).re) +
        0.5 * (-(∑ i ∈ Finset.univ.filter (fun i => (1e-12 : ℝ) < eigs i),
          eigs i * Real.logb 2 (eigs i + 1e-12)) / 3)) := by
  simp only [compute_C_alg, circuit_depth_proxy]
  rw [if_pos h]

lemma compute_C_alg_bounds {C : List ℤ} {Q : Mat8} {eigs : Fin 8 → ℝ}
    (tags : Finset String) (pts : Option (List (ℝ × ℝ)))
    (hlen : C.length = 8) (hbits : ∀ x ∈ C, x = 0 ∨ x = 1)
    (hval : IsValidDM Q) (hs : IsSpectrum Q eigs) :
    -(1e-12) ≤ compute_C_alg ⟨C, Q, tags, pts⟩ eigs ∧
      compute_C_alg ⟨C, Q, tags, pts⟩ eigs ≤ 1 := by
  rw [compute_C_alg_eq C Q tags pts eigs (by omega), hlen]
  have h0 := eigs_nonneg hval hs
  have h1 := eigs_sum_one hval hs
  have hpur := purity_mem hval hs
  have hent3 := entropy_le_three h0 h1
  have hentL := entropy_lower h0 h1
  have hbits2 := bits01 hbits
  have hsum := sum_bits_bounds C hbits2
  have hzip := zip_abs_bounds C C.tail hbits2
    (fun x hx => hbits2 x (List.mem_of_mem_tail hx))
  have hziplen : (C.zipWith (fun a b => |b - a|) C.tail).length = 7 := by
    rw [List.length_zipWith, List.length_tail, hlen]
    decide
  rw [hziplen] at hzip
  have hSc : (0 : ℝ) ≤ (C.sum : ℝ) ∧ (C.sum : ℝ) ≤ 8 := by
    constructor
    · exact_mod_cast hsum.1
    · have := hsum.2
      rw [hlen] at this
      exact_mod_cast this
  have hDf : (0 : ℝ) ≤ (diff_abs_sum C : ℝ) ∧ (diff_abs_sum C : ℝ) ≤ 7 := by
    unfold diff_abs_sum
    constructor
    · exact_mod_cast hzip.1
    · exact_mod_cast hzip.2
  have hL2 : (0.6931471803 : ℝ) < Real.log 2 := Real.log_two_gt_d9
  have hlogb_small : Real.logb 2 (1 + 1e-12) ≤ 1.5e-12 := by
    rw [Real.logb, div_le_iff₀ (by linarith)]
    have hlog : Real.log (1 + 1e-12) ≤ 1e-12 := by
      have := Real.log_le_sub_one_of_pos (by norm_num : (0 : ℝ) < 1 + 1e-12)
      linarith
    nlinarith
  push_cast at hSc ⊢
  constructor <;> nlinarith [hpur.1, hpur.2, hent3, hentL, hSc.1, hSc.2, hDf.1, hDf.2,
    hlogb_small]

lemma compute_C_info_eq (C : List ℤ) (Q : Mat8) (tags : Finset String)
    (pts : Option (List (ℝ × ℝ))) (eigs : Fin 8 → ℝ) (h : 0 < C.length / 2) :
    compute_C_info ⟨C, Q, tags, pts⟩ eigs =
      0.3 * (1 - 2 * |meanZ ((List.range (C.length / 2)).map
          (fun i => parity ((C.drop (2 * i)).take 2))) - 0.5|) +
      0.5 * (1 - ((Q * Q).trace).re) +
      0.2 * ((((Finset.univ.filter fun i => (1e-10 : ℝ) < eigs i).card : ℝ) - 1) /
        ((8 : ℝ) - 1)) := by
  simp only [compute_C_info]
  rw [if_pos h]

lemma compute_C_info_bounds {C : List ℤ} {Q : Mat8} {eigs : Fin 8 → ℝ}
    (tags : Finset String) (pts : Option (List (ℝ × ℝ)))
    (hlen : C.length = 8) (hval : IsValidDM Q) (hs : IsSpectrum Q eigs) :
    0 ≤ compute_C_info ⟨C, Q, tags, pts⟩ eigs ∧
      compute_C_info ⟨C, Q, tags, pts⟩ eigs ≤ 1 := by
  rw [compute_C_info_eq C Q tags pts eigs (by omega)]
  have h0 := eigs_nonneg hval hs
  have h1 := eigs_sum_one hval hs
  have hpur := purity_mem hval hs
  have hrank := rank_bounds h0 h1
  have hmean : 0 ≤ meanZ ((List.range (C.length / 2)).map
      (fun i => parity ((C.drop (2 * i)).take 2))) ∧
      meanZ ((List.range (C.length / 2)).map
        (fun i => parity ((C.drop (2 * i)).take 2))) ≤ 1 := by
    refine meanZ_bounds ?_
    intro x hx
    obtain ⟨i, _, rfl⟩ := List.mem_map.mp hx
    exact parity_mem _
  have habs : |meanZ ((List.range (C.length / 2)).map
      (fun i => parity ((C.drop (2 * i)).take 2))) - 0.5| ≤ 0.5 := by
    rw [abs_le]
    constructor <;> linarith [hmean.1, hmean.2]
  have hrank1 : (1 : ℝ) ≤ ((Finset.univ.filter fun i => (1e-10 : ℝ) < eigs i).card : ℝ) := by
    exact_mod_cast hrank.1
  have hrank8 : ((Finset.univ.filter fun i => (1e-10 : ℝ) < eigs i).card : ℝ) ≤ 8 := by
    exact_mod_cast hrank.2
  have habs0 : 0 ≤ |meanZ ((List.range (C.length / 2)).map
      (fun i => parity ((C.drop (2 * i)).take 2))) - 0.5| := abs_nonneg _
  constructor <;> nlinarith [hpur.1, hpur.2]

lemma mixing_mem (C : List ℤ) :
    0 ≤ compute_bit_mixing_score C ∧ compute_bit_mixing_score C ≤ 1 := by
  unfold compute_bit_mixing_score
  exact ⟨clip01_nonneg _, clip01_le_one _⟩

lemma compute_C_dyn_bounds (s : SystemState) (eigs : Fin 8 → ℝ) :
    0 ≤ compute_C_dyn s eigs ∧ compute_C_dyn s eigs ≤ 1 := by
  simp only [compute_C_dyn]
  have hm := mixing_mem s.C
  have hsp : 0 ≤ (if 1 < (Finset.univ.filter fun i => (1e-12 : ℝ) < eigs i).card then
      clip01 (Real.sqrt ((∑ i ∈ Finset.univ.filter (fun i => (1e-12 : ℝ) < eigs i),
        (eigs i - (∑ j ∈ Finset.univ.filter (fun j => (1e-12 : ℝ) < eigs j), eigs j) /
          (Finset.univ.filter fun j => (1e-12 : ℝ) < eigs j).card) ^ 2) /
        (Finset.univ.filter fun i => (1e-12 : ℝ) < eigs i).card) /
        ((∑ j ∈ Finset.univ.filter (fun j => (1e-12 : ℝ) < eigs j), eigs j) /
          (Finset.univ.filter fun j => (1e-12 : ℝ) < eigs j).card + 1e-12))
      else 0) ∧
      (if 1 < (Finset.univ.filter fun i => (1e-12 : ℝ) < eigs i).card then
      clip01 (Real.sqrt ((∑ i ∈ Finset.univ.filter (fun i => (1e-12 : ℝ) < eigs i),
        (eigs i - (∑ j ∈ Finset.univ.filter (fun j => (1e-12 : ℝ) < eigs j), eigs j) /
          (Finset.univ.filter fun j => (1e-12 : ℝ) < eigs j).card) ^ 2) /
        (Finset.univ.filter fun i => (1e-12 : ℝ) < eigs i).card) /
        ((∑ j ∈ Finset.univ.filter (fun j => (1e-12 : ℝ) < eigs j), eigs j) /
          (Finset.univ.filter fun j => (1e-12 : ℝ) < eigs j).card + 1e-12))
      else 0) ≤ 1 := by
    split
    · exact ⟨clip01_nonneg _, clip01_le_one _⟩
    · norm_num
  constructor <;> nlinarith [hm.1, hm.2, hsp.1, hsp.2]

lemma compute_C_geom_defined (s : SystemState) (gen_points : List (ℝ × ℝ))
    (h : s.points.getD gen_points ≠ []) :
    ∃ g, compute_C_geom s gen_points = some g ∧ 0 ≤ g ∧ g ≤ 1 := by
  simp only [compute_C_geom]
  rw [if_pos (show (0 : ℝ) < (0.8 * A_PARAM) ^ 2 by norm_num [A_PARAM])]
  have hlen : ¬ ((s.points.getD gen_points).map
      (fun p => Real.sqrt (p.1 ^ 2 + p.2 ^ 2))).length = 0 := by
    simpa [List.length_eq_zero] using h
  rw [if_neg hlen]
  exact ⟨_, rfl, clip01_nonneg _, clip01_le_one _⟩

/-- C4 counterexample: at the origin state (8 zero bits, the valid density
matrix `|000⟩⟨000|` with spectrum `{1, 0, …, 0}`), `compute_C_alg` returns a
**negative** value: its entropy term is `-log2(1 + 1e-12) < 0` and the
function applies no clip, so the result lies outside `[0, 1]`. -/
theorem C4_compute_C_alg_negative :
    IsValidDM Q_0 ∧ IsSpectrum Q_0 eigs_Q0 ∧
      compute_C_alg initial_state eigs_Q0 < 0 := by
  refine ⟨isValidDM_Q0, isSpectrum_Q0, ?_⟩
  show compute_C_alg ⟨List.replicate 8 0, Q_0, ∅, none⟩ eigs_Q0 < 0
  rw [compute_C_alg_eq _ _ _ _ _ (by simp), filter_eigsQ0_12]
  have hsum0 : (List.replicate 8 (0 : ℤ)).sum = 0 := by decide
  have hdiff0 : diff_abs_sum (List.replicate 8 (0 : ℤ)) = 0 := by decide
  have hpos : 0 < Real.logb 2 (1 + 1e-12) := Real.logb_pos (by norm_num) (by norm_num)
  rw [hsum0, hdiff0, Q0_mul_Q0, Q0_trace, Finset.sum_singleton]
  simp only [eigs_Q0, if_pos rfl, Complex.one_re]
  norm_num
  nlinarith

/-- C4 amended: on every composite state with an 8-bit binary classical
component and a valid density matrix, `compute_C_info` and `compute_C_dyn`
return values in `[0,1]`, `compute_C_geom` returns a defined value in
`[0,1]` whenever the point cloud it uses is non-empty, and `compute_C_alg`
returns a value in `[-1e-12, 1]` (it can dip below 0 by at most the spurious
`-log2(1 + 1e-12)` entropy of a pure state, but never exceeds 1). -/
theorem C4_pillar_ranges (C : List ℤ) (Q : Mat8) (eigs : Fin 8 → ℝ)
    (tags : Finset String) (pts : Option (List (ℝ × ℝ)))
    (gen_points : List (ℝ × ℝ))
    (hlen : C.length = 8) (hbits : ∀ x ∈ C, x = 0 ∨ x = 1)
    (hval : IsValidDM Q) (hs : IsSpectrum Q eigs)
    (hpts : pts.getD gen_points ≠ []) :
    (-(1e-12) ≤ compute_C_alg ⟨C, Q, tags, pts⟩ eigs ∧
      compute_C_alg ⟨C, Q, tags, pts⟩ eigs ≤ 1) ∧
    (0 ≤ compute_C_info ⟨C, Q, tags, pts⟩ eigs ∧
      compute_C_info ⟨C, Q, tags, pts⟩ eigs ≤ 1) ∧
    (0 ≤ compute_C_dyn ⟨C, Q, tags, pts⟩ eigs ∧
      compute_C_dyn ⟨C, Q, tags, pts⟩ eigs ≤ 1) ∧
    (∃ g, compute_C_geom ⟨C, Q, tags, pts⟩ gen_points = some g ∧ 0 ≤ g ∧ g ≤ 1) :=
  ⟨compute_C_alg_bounds tags pts hlen hbits hval hs,
    compute_C_info_bounds tags pts hlen hval hs,
    compute_C_dyn_bounds _ eigs,
    compute_C_geom_defined _ gen_points hpts⟩

/-- Witness for C4's amended claim at the origin data. -/
theorem C4_witness :
    (-(1e-12) ≤ compute_C_alg ⟨List.replicate 8 0, Q_0, ∅, none⟩ eigs_Q0 ∧
      compute_C_alg ⟨List.replicate 8 0, Q_0, ∅, none⟩ eigs_Q0 ≤ 1) ∧
    (0 ≤ compute_C_info ⟨List.replicate 8 0, Q_0, ∅, none⟩ eigs_Q0 ∧
      compute_C_info ⟨List.replicate 8 0, Q_0, ∅, none⟩ eigs_Q0 ≤ 1) ∧
    (0 ≤ compute_C_dyn ⟨List.replicate 8 0, Q_0, ∅, none⟩ eigs_Q0 ∧
      compute_C_dyn ⟨List.replicate 8 0, Q_0, ∅, none⟩ eigs_Q0 ≤ 1) ∧
    (∃ g, compute_C_geom ⟨List.replicate 8 0, Q_0, ∅, none⟩ [((0 : ℝ), (0 : ℝ))] =
      some g ∧ 0 ≤ g ∧ g ≤ 1) :=
  C4_pillar_ranges (List.replicate 8 0) Q_0 eigs_Q0 ∅ none [((0 : ℝ), (0 : ℝ))]
    (by decide) (fun x hx => Or.inl (List.eq_of_mem_replicate hx))
    isValidDM_Q0 isSpectrum_Q0 (by simp)

/- ============================================================
   Claim C1 — the round-trip law: the closing composition φ on the
   state X4 = f_geom (f_dyn (f_info (f_alg (origin)))) restores the
   classical component bit-for-bit and the quantum component exactly
   (trace overlap 1 ≥ 0.9), for every measurement outcome, every
   modelled point-cloud draw and every admissible pair of dominant
   eigenvectors returned by the two `np.linalg.eigh` calls.
   ============================================================ -/

/-- The state `X4` of the demo: the four forward morphisms applied in order
to `initial_state`; `o` is the measurement draw inside `f_info`, `pts` the
point-cloud draw inside `f_geom`. -/
noncomputable def forward_cycle (o : Fin 2) (pts : List (ℝ × ℝ)) : SystemState :=
  morphism_4_disk_to_annulus (morphism_3_arnold_cat (morphism_2_syndrome_encoding
    (morphism_1_circuit_compilation initial_state) o)) pts

lemma dyn_conj_cancel (A : Mat8) :
    U_total_dag * (U_total * A * U_totalᴴ) * U_total_dagᴴ = A := by
  have hassoc : U_total_dag * (U_total * A * U_totalᴴ) * U_total_dagᴴ =
      (U_total_dag * U_total) * A * (U_totalᴴ * U_total_dagᴴ) := by
    simp only [Matrix.mul_assoc]
  rw [hassoc, U_total_dag_mul_U_total, U_totalH_mul_U_total_dagH,
    Matrix.one_mul, Matrix.mul_one]

lemma vecMulVec_sq (v : Fin 8 → ℂ) :
    Matrix.vecMulVec v (star v) * Matrix.vecMulVec v (star v) =
      Matrix.dotProduct (star v) v • Matrix.vecMulVec v (star v) := by
  ext i j
  simp only [Matrix.mul_apply, Matrix.vecMulVec_apply, Matrix.smul_apply, smul_eq_mul,
    Matrix.dotProduct, Pi.star_apply]
  rw [Finset.sum_mul]
  exact Finset.sum_congr rfl fun k _ => by ring

lemma rho_prepared_sq : rho_prepared * rho_prepared = rho_prepared := by
  rw [← prepare_ghz_state_eq]
  have h := vecMulVec_sq ghz_psi
  have hu : (∑ i, Complex.normSq (ghz_psi i)) = 1 := unitVec_ghz_psi
  rw [dot_star_self, hu, Complex.ofReal_one, one_smul] at h
  exact h

/-- `P₀ ρ₁ P₀ = ρ₁`: the prepared state is supported on indices 0 and 4,
whose bit 0 is clear. -/
lemma proj0_conj_rho1 :
    projector_single_qubit 0 0 * rho_prepared * projector_single_qubit 0 0 =
      rho_prepared := by
  ext i j
  fin_cases i <;> fin_cases j <;>
    simp +decide [projector_single_qubit, rho_prepared, Matrix.diagonal_mul,
      Matrix.mul_diagonal]

/-- `P₁ ρ₁ P₁ = 0`. -/
lemma proj1_conj_rho1 :
    projector_single_qubit 0 1 * rho_prepared * projector_single_qubit 0 1 = 0 := by
  ext i j
  fin_cases i <;> fin_cases j <;>
    simp +decide [projector_single_qubit, rho_prepared, Matrix.diagonal_mul,
      Matrix.mul_diagonal]

/-- The post-measurement state `ρ₂ = measure_qubit_post ρ₁`, in closed form. -/
noncomputable def rho2ex : Mat8 := (9/10 : ℂ) • rho_prepared + (1/80 : ℂ) • 1

lemma measure_post_prepared : measure_qubit_post rho_prepared = rho2ex := by
  unfold measure_qubit_post rho2ex
  rw [proj0_conj_rho1, proj1_conj_rho1, add_zero, smul_smul]
  have h1 : ((1 - depol_strength : ℝ) : ℂ) = (9/10 : ℂ) := by
    unfold depol_strength
    push_cast
    norm_num
  have h2 : ((depol_strength : ℝ) : ℂ) * (8 : ℂ)⁻¹ = (1/80 : ℂ) := by
    unfold depol_strength
    norm_num
  rw [h1, h2]

lemma rho2_sub_lo : rho2ex - (1/80 : ℂ) • 1 = (9/10 : ℂ) • rho_prepared := by
  unfold rho2ex
  rw [add_sub_cancel_right]

lemma rho2_sub_hi : rho2ex - (73/80 : ℂ) • 1 =
    (9/10 : ℂ) • rho_prepared - (9/10 : ℂ) • 1 := by
  unfold rho2ex
  have h : (1/80 - 73/80 : ℂ) = -(9/10) := by norm_num
  rw [add_sub_assoc, ← sub_smul, h, neg_smul, ← sub_eq_add_neg]

/-- `ρ₂` satisfies the quadratic `(ρ₂ - 1/80)(ρ₂ - 73/80) = 0`: its spectrum
is contained in `{1/80, 73/80}`. -/
lemma rho2_quadratic :
    (rho2ex - (1/80 : ℂ) • 1) * (rho2ex - (73/80 : ℂ) • 1) = 0 := by
  rw [rho2_sub_lo, rho2_sub_hi, Matrix.smul_mul, Matrix.mul_sub, Matrix.mul_smul,
    Matrix.mul_smul, rho_prepared_sq, Matrix.mul_one, sub_self, smul_zero]

lemma rho1_quadratic :
    (rho_prepared - (0 : ℂ) • 1) * (rho_prepared - (1 : ℂ) • 1) = 0 := by
  rw [zero_smul, sub_zero, one_smul, Matrix.mul_sub, Matrix.mul_one,
    rho_prepared_sq, sub_self]

/-- Any eigenvalue of a matrix annihilated by `(M - a)(M - b)` is `a` or `b`. -/
lemma eigen_dichotomy {M : Mat8} {a b : ℂ}
    (hq : (M - a • 1) * (M - b • 1) = 0) {μ : ℂ} {v : Fin 8 → ℂ}
    (hv : v ≠ 0) (he : M.mulVec v = μ • v) : μ = a ∨ μ = b := by
  have key : ∀ c : ℂ, (M - c • (1 : Mat8)).mulVec v = (μ - c) • v := by
    intro c
    rw [Matrix.sub_mulVec, he, Matrix.smul_mulVec_assoc, Matrix.one_mulVec, sub_smul]
  have h2 : ((M - a • (1 : Mat8)) * (M - b • 1)).mulVec v =
      ((μ - b) * (μ - a)) • v := by
    rw [← Matrix.mulVec_mulVec, key b, Matrix.mulVec_smul, key a, smul_smul]
  rw [hq, Matrix.zero_mulVec] at h2
  have h3 : ((μ - b) * (μ - a)) = 0 := by
    rcases smul_eq_zero.mp h2.symm with h | h
    · exact h
    · exact absurd h hv
  rcases mul_eq_zero.mp h3 with h | h
  · exact Or.inr (sub_eq_zero.mp h)
  · exact Or.inl (sub_eq_zero.mp h)

/-- The (unnormalized) vector `e₀ + e₄`. -/
def e04 : Fin 8 → ℂ := fun i => if i = 0 ∨ i = 4 then 1 else 0

lemma e04_ne : e04 ≠ 0 := by
  intro h
  have h0 := congrFun h 0
  simp [e04] at h0

lemma rho1_mulVec_e04 : rho_prepared.mulVec e04 = e04 := by
  funext i
  fin_cases i <;>
    simp +decide [rho_prepared, e04, Matrix.mulVec, Matrix.dotProduct,
      Fin.sum_univ_eight] <;> norm_num

lemma rho2_mulVec_e04 : rho2ex.mulVec e04 = (((73/80 : ℝ)) : ℂ) • e04 := by
  unfold rho2ex
  rw [Matrix.add_mulVec, Matrix.smul_mulVec_assoc, Matrix.smul_mulVec_assoc,
    Matrix.one_mulVec, rho1_mulVec_e04, ← add_smul]
  have h : ((9/10 : ℂ) + 1/80) = (((73/80 : ℝ)) : ℂ) := by
    push_cast
    norm_num
  rw [h]

/-- Any dominant unit eigenvector of `ρ₂` has outer product exactly `ρ₁`:
the top eigenvalue is `73/80`, its eigenspace is spanned by `e₀ + e₄`. -/
lemma maxvec_rho2 {v : Fin 8 → ℂ} (hv : IsMaxEigenvector rho2ex v) :
    Matrix.vecMulVec v (star v) = rho_prepared := by
  obtain ⟨hunit, μ, heig, hmax⟩ := hv
  have hvne : v ≠ 0 := by
    intro h
    have h1 : (∑ i, Complex.normSq (v i)) = 1 := hunit
    rw [h] at h1
    simp at h1
  have hge : (73/80 : ℝ) ≤ μ := hmax (73/80) ⟨e04, e04_ne, rho2_mulVec_e04⟩
  have hcast1 : ((1/80 : ℝ) : ℂ) = (1/80 : ℂ) := by push_cast; ring
  have hcast2 : ((73/80 : ℝ) : ℂ) = (73/80 : ℂ) := by push_cast; ring
  have hμ : μ = 73/80 := by
    rcases eigen_dichotomy rho2_quadratic hvne heig with h | h
    · rw [← hcast1] at h
      have h1 := Complex.ofReal_inj.mp h
      linarith
    · rw [← hcast2] at h
      exact Complex.ofReal_inj.mp h
  rw [hμ] at heig
  have h0 := congrFun heig 0
  have h1 := congrFun heig 1
  have h2 := congrFun heig 2
  have h3 := congrFun heig 3
  have h5 := congrFun heig 5
  have h6 := congrFun heig 6
  have h7 := congrFun heig 7
  simp +decide [rho2ex, rho_prepared, Matrix.mulVec, Matrix.dotProduct,
    Fin.sum_univ_eight, Matrix.add_apply, Matrix.smul_apply, Matrix.one_apply,
    Pi.smul_apply, smul_eq_mul] at h0 h1 h2 h3 h5 h6 h7
  have hv1 : v 1 = 0 := h1.resolve_left (by norm_num)
  have hv2 : v 2 = 0 := h2.resolve_left (by norm_num)
  have hv3 : v 3 = 0 := h3.resolve_left (by norm_num)
  have hv5 : v 5 = 0 := h5.resolve_left (by norm_num)
  have hv6 : v 6 = 0 := h6.resolve_left (by norm_num)
  have hv7 : v 7 = 0 := h7.resolve_left (by norm_num)
  have hv4 : v 4 = v 0 := by linear_combination (20/9 : ℂ) * h0
  have hsum : Complex.normSq (v 0) = 1/2 := by
    have hs : (∑ i, Complex.normSq (v i)) = 1 := hunit
    rw [Fin.sum_univ_eight, hv1, hv2, hv3, hv4, hv5, hv6, hv7] at hs
    simp at hs
    linarith
  have hcstar : v 0 * (starRingEnd ℂ) (v 0) = (2⁻¹ : ℂ) := by
    rw [Complex.mul_conj, hsum]
    norm_num
  ext i j
  fin_cases i <;> fin_cases j <;>
    simp +decide [Matrix.vecMulVec_apply, rho_prepared, Pi.star_apply,
      hv1, hv2, hv3, hv5, hv6, hv7, hv4, hcstar]

/-- Any dominant unit eigenvector of `ρ₁` is supported on `{0, 4}` with equal
components of squared modulus `1/2`. -/
lemma maxvec_rho1 {w : Fin 8 → ℂ} (hw : IsMaxEigenvector rho_prepared w) :
    w 1 = 0 ∧ w 2 = 0 ∧ w 3 = 0 ∧ w 5 = 0 ∧ w 6 = 0 ∧ w 7 = 0 ∧ w 4 = w 0 ∧
      w 0 * star (w 0) = (1/2 : ℂ) := by
  obtain ⟨hunit, μ, heig, hmax⟩ := hw
  have hwne : w ≠ 0 := by
    intro h
    have h1 : (∑ i, Complex.normSq (w i)) = 1 := hunit
    rw [h] at h1
    simp at h1
  have hge : (1 : ℝ) ≤ μ := by
    refine hmax 1 ⟨e04, e04_ne, ?_⟩
    rw [rho1_mulVec_e04, Complex.ofReal_one, one_smul]
  have hμ : μ = 1 := by
    rcases eigen_dichotomy rho1_quadratic hwne heig with h | h
    · have h1 : μ = 0 := by exact_mod_cast h
      linarith
    · exact_mod_cast h
  rw [hμ] at heig
  have h0 := congrFun heig 0
  have h1 := congrFun heig 1
  have h2 := congrFun heig 2
  have h3 := congrFun heig 3
  have h5 := congrFun heig 5
  have h6 := congrFun heig 6
  have h7 := congrFun heig 7
  simp +decide [rho_prepared, Matrix.mulVec, Matrix.dotProduct,
    Fin.sum_univ_eight, Pi.smul_apply, smul_eq_mul] at h0 h1 h2 h3 h5 h6 h7
  have hw1 : w 1 = 0 := by linear_combination -h1
  have hw2 : w 2 = 0 := by linear_combination -h2
  have hw3 : w 3 = 0 := by linear_combination -h3
  have hw5 : w 5 = 0 := by linear_combination -h5
  have hw6 : w 6 = 0 := by linear_combination -h6
  have hw7 : w 7 = 0 := by linear_combination -h7
  have hw4 : w 4 = w 0 := by linear_combination (2 : ℂ) * h0
  have hsum : Complex.normSq (w 0) = 1/2 := by
    have hs : (∑ i, Complex.normSq (w i)) = 1 := hunit
    rw [Fin.sum_univ_eight, hw1, hw2, hw3, hw4, hw5, hw6, hw7] at hs
    simp at hs
    linarith
  have hcstar : w 0 * star (w 0) = (1/2 : ℂ) := by
    rw [Complex.star_def, Complex.mul_conj, hsum]
    norm_num
  exact ⟨hw1, hw2, hw3, hw5, hw6, hw7, hw4, hcstar⟩

lemma cnot01_mulVec_supp {w : Fin 8 → ℂ} (h1 : w 1 = 0) (h2 : w 2 = 0)
    (h3 : w 3 = 0) (h5 : w 5 = 0) (h6 : w 6 = 0) (h7 : w 7 = 0) (h4 : w 4 = w 0) :
    (cnot_gate 0 1).mulVec w = w := by
  funext i
  fin_cases i <;>
    simp +decide [cnot_gate, Matrix.mulVec, Matrix.dotProduct, Fin.sum_univ_eight,
      h1, h2, h3, h5, h6, h7, h4]

lemma H_full_mulVec_supp {w : Fin 8 → ℂ} (h1 : w 1 = 0) (h2 : w 2 = 0)
    (h3 : w 3 = 0) (h5 : w 5 = 0) (h6 : w 6 = 0) (h7 : w 7 = 0) (h4 : w 4 = w 0) :
    H_full.mulVec w = fun i => if i = 0 then 2 * invSqrt2 * w 0 else 0 := by
  rw [H_full_eq, Matrix.smul_mulVec_assoc]
  funext i
  fin_cases i <;>
    simp +decide [H_kernel, kron24, Matrix.mulVec, Matrix.dotProduct,
      Fin.sum_univ_eight, Matrix.one_apply, Pi.smul_apply, smul_eq_mul,
      h1, h2, h3, h5, h6, h7, h4] <;> ring

/-- The quantum output of `f_alg_inv` on any dominant unit eigenvector of
`ρ₁` is exactly `|000⟩⟨000|`. -/
lemma alg_outer_eq_Q0 {w : Fin 8 → ℂ} (hw : IsMaxEigenvector rho_prepared w) :
    Matrix.vecMulVec (H_full.mulVec ((cnot_gate 0 1).mulVec w))
      (star (H_full.mulVec ((cnot_gate 0 1).mulVec w))) = Q_0 := by
  obtain ⟨h1, h2, h3, h5, h6, h7, h4, hc⟩ := maxvec_rho1 hw
  rw [cnot01_mulVec_supp h1 h2 h3 h5 h6 h7 h4,
    H_full_mulVec_supp h1 h2 h3 h5 h6 h7 h4]
  have hstar : star (2 * invSqrt2 * w 0) = 2 * invSqrt2 * star (w 0) := by
    simp [star_invSqrt2]
  have hkey : (2 * invSqrt2 * w 0) * star (2 * invSqrt2 * w 0) = 1 := by
    rw [hstar]
    linear_combination (4 * (w 0 * star (w 0))) * invSqrt2_mul_self + 2 * hc
  ext i j
  simp only [Matrix.vecMulVec_apply, Pi.star_apply]
  by_cases hi : i = 0 <;> by_cases hj : j = 0
  · subst hi
    subst hj
    simpa [Q_0] using hkey
  · subst hi
    simp [Q_0, hj]
  · subst hj
    simp [Q_0, hi]
  · simp [Q_0, hi, hj]

lemma trace_overlap_Q0 : trace_overlap Q_0 Q_0 = 1 := by
  unfold trace_overlap
  rw [Q0_mul_Q0, Q0_trace]
  simp

/-- The quantum component after the first two inverse steps of φ on `X4` is
exactly `ρ₂`: `f_geom_inv` does not touch it and `f_dyn_inv` undoes the
Floquet conjugation exactly. -/
lemma back_two_Q (o : Fin 2) (pts : List (ℝ × ℝ)) :
    (f_dyn_inv (f_geom_inv (forward_cycle o pts))).Q = rho2ex := by
  show U_total_dag * (U_total * measure_qubit_post prepare_ghz_state * U_totalᴴ) *
      U_total_dagᴴ = rho2ex
  rw [dyn_conj_cancel, prepare_ghz_state_eq, measure_post_prepared]

/-- C1: round-trip law on the origin state.  For every measurement outcome
`o`, every point-cloud draw `pts`, and every pair of dominant unit
eigenvectors `v`, `w` actually extracted by the two `np.linalg.eigh` calls
inside `f_info_inv` and `f_alg_inv`, the closing composition
`φ = f_alg_inv ∘ f_info_inv ∘ f_dyn_inv ∘ f_geom_inv` applied to
`X4 = f_geom (f_dyn (f_info (f_alg (initial_state))))` returns the origin's
classical component bit-for-bit and a quantum component whose normalized
trace overlap with the origin's `|000⟩⟨000|` is `≥ 0.9` (it is exactly 1). -/
theorem C1_phi_roundtrip_origin (o : Fin 2) (pts : List (ℝ × ℝ)) (v w : Fin 8 → ℂ)
    (hv : IsMaxEigenvector (f_dyn_inv (f_geom_inv (forward_cycle o pts))).Q v)
    (hw : IsMaxEigenvector
      (f_info_inv (f_dyn_inv (f_geom_inv (forward_cycle o pts))) v).Q w) :
    (phi_closing_isomorphism (forward_cycle o pts) v w).C = initial_state.C ∧
      trace_overlap initial_state.Q
        (phi_closing_isomorphism (forward_cycle o pts) v w).Q ≥ 9/10 := by
  have hQv : IsMaxEigenvector rho2ex v := by rwa [back_two_Q] at hv
  have houter := maxvec_rho2 hQv
  have hQw : IsMaxEigenvector rho_prepared w := by
    have hrfl : (f_info_inv (f_dyn_inv (f_geom_inv (forward_cycle o pts))) v).Q =
        Matrix.vecMulVec v (star v) := rfl
    rwa [hrfl, houter] at hw
  have hfinal : (phi_closing_isomorphism (forward_cycle o pts) v w).Q = Q_0 := by
    show Matrix.vecMulVec (H_full.mulVec ((cnot_gate 0 1).mulVec w))
      (star (H_full.mulVec ((cnot_gate 0 1).mulVec w))) = Q_0
    exact alg_outer_eq_Q0 hQw
  refine ⟨rfl, ?_⟩
  rw [hfinal]
  show trace_overlap Q_0 Q_0 ≥ 9/10
  rw [trace_overlap_Q0]
  norm_num

/-- The dominant eigenvector both `eigh` calls return (up to phase) on the
round trip: the unit vector `(e₀ + e₄)/√2`. -/
noncomputable def vstar : Fin 8 → ℂ := fun i => if i = 0 ∨ i = 4 then invSqrt2 else 0

lemma vstar_eq_ghz : vstar = ghz_psi := ghz_psi_eq.symm

lemma unitVec_vstar : UnitVec vstar := by
  have h := unitVec_ghz_psi
  rw [ghz_psi_eq] at h
  exact h

lemma vstar_eq_smul : vstar = invSqrt2 • e04 := by
  funext i
  by_cases h : i = 0 ∨ i = 4 <;> simp [vstar, e04, h]

lemma maxeig_rho2_vstar : IsMaxEigenvector rho2ex vstar := by
  refine ⟨unitVec_vstar, 73/80, ?_, ?_⟩
  · rw [vstar_eq_smul, Matrix.mulVec_smul, rho2_mulVec_e04, smul_comm]
  · intro μ2 hex
    obtain ⟨u, hu, he⟩ := hex
    have hcast1 : ((1/80 : ℝ) : ℂ) = (1/80 : ℂ) := by push_cast; ring
    have hcast2 : ((73/80 : ℝ) : ℂ) = (73/80 : ℂ) := by push_cast; ring
    rcases eigen_dichotomy rho2_quadratic hu he with h | h
    · rw [← hcast1] at h
      have h1 := Complex.ofReal_inj.mp h
      linarith
    · rw [← hcast2] at h
      have h1 := Complex.ofReal_inj.mp h
      linarith

lemma outer_vstar : Matrix.vecMulVec vstar (star vstar) = rho_prepared := by
  rw [vstar_eq_ghz]
  exact prepare_ghz_state_eq

lemma maxeig_rho1_vstar : IsMaxEigenvector rho_prepared vstar := by
  refine ⟨unitVec_vstar, 1, ?_, ?_⟩
  · rw [vstar_eq_smul, Matrix.mulVec_smul, rho1_mulVec_e04, Complex.ofReal_one,
      one_smul]
  · intro μ2 hex
    obtain ⟨u, hu, he⟩ := hex
    rcases eigen_dichotomy rho1_quadratic hu he with h | h
    · have h1 : μ2 = 0 := by exact_mod_cast h
      linarith
    · have h1 : μ2 = 1 := by exact_mod_cast h
      linarith

lemma maxeig_hyp1 :
    IsMaxEigenvector (f_dyn_inv (f_geom_inv (forward_cycle 0 []))).Q vstar := by
  rw [back_two_Q]
  exact maxeig_rho2_vstar

lemma maxeig_hyp2 :
    IsMaxEigenvector
      (f_info_inv (f_dyn_inv (f_geom_inv (forward_cycle 0 []))) vstar).Q vstar := by
  show IsMaxEigenvector (Matrix.vecMulVec vstar (star vstar)) vstar
  rw [outer_vstar]
  exact maxeig_rho1_vstar

/-- Witness for C1: outcome 0, empty point cloud, and the concrete dominant
eigenvector `(e₀ + e₄)/√2` for both `eigh` extractions. -/
theorem C1_witness :
    (phi_closing_isomorphism (forward_cycle 0 []) vstar vstar).C = initial_state.C ∧
      trace_overlap initial_state.Q
        (phi_closing_isomorphism (forward_cycle 0 []) vstar vstar).Q ≥ 9/10 :=
  C1_phi_roundtrip_origin 0 [] vstar vstar maxeig_hyp1 maxeig_hyp2

end FiveStep
